import Mathlib

/-!
Verification of the scraping/reconciliation pipeline of `Scrapers/scrape_gas.py`.

The Python functions are embedded shallowly:

* Python `str` values become Lean `String` / `List Char`; the ASCII fragment of
  Python's `str.strip`, `str.lower`, `str.splitlines` and of the regular
  expressions `^\d{1,6}\s`, `[a-zA-Z]+`, `\$\s*(\d+\.\d{2})`, `\bago\b` is
  implemented explicitly on `List Char`.
* Python floats (prices) are modelled as `ℚ`; the pipeline only parses and
  copies prices, it never computes with them.
* Python `None` / possibly-absent dict keys become `Option`.
* Python dicts keyed by station id / city become insertion-ordered association
  lists, matching the insertion-order semantics of `dict`.
* The Selenium driver is an external collaborator: a page is modelled by the
  list of rendered station links (name, href, card text), with `Option` for a
  timed-out wait and `Except` for a raised grade-switch timeout.
-/

set_option maxHeartbeats 1000000

namespace GasPrice

/-! ### Character/string utilities (ASCII fragment of the Python primitives) -/

/-- Whitespace characters recognised by Python's `str.strip` / regex `\s`
(ASCII fragment). -/
def isPySpace (c : Char) : Bool :=
  c = ' ' || c = '\t' || c = '\n' || c = '\r' || c = '\x0b' || c = '\x0c'

/-- Python `str.strip()` on a character list. -/
def pystrip (l : List Char) : List Char :=
  ((l.dropWhile isPySpace).reverse.dropWhile isPySpace).reverse

/-- Python `str.strip()` on a `String`. -/
def pystripS (s : String) : String := ⟨pystrip s.data⟩

/-- Python `str.lower()` (ASCII fragment). -/
def lowerStr (l : List Char) : List Char := l.map Char.toLower

/-- Python `str.lower()` on a `String`. -/
def lowerS (s : String) : String := ⟨lowerStr s.data⟩

/-- Does `l` start with `p`? (helper for substring containment). -/
def listStartsWith : List Char → List Char → Bool
  | [], _ => true
  | _ :: _, [] => false
  | p :: ps, c :: cs => p == c && listStartsWith ps cs

/-- Python's `p in l` substring containment on character lists. -/
def containsSub (p : List Char) : List Char → Bool
  | [] => p.isEmpty
  | c :: t => listStartsWith p (c :: t) || containsSub p t

/-- Substring containment, specification form: `p` occurs contiguously in `l`. -/
def ContainsSpec (p l : List Char) : Prop := ∃ pre post, l = pre ++ p ++ post

theorem listStartsWith_iff (p l : List Char) :
    listStartsWith p l = true ↔ ∃ post, l = p ++ post := by
  induction p generalizing l with
  | nil => simp [listStartsWith]
  | cons a ps ih =>
    cases l with
    | nil => simp [listStartsWith]
    | cons c cs =>
      simp only [listStartsWith, Bool.and_eq_true, beq_iff_eq, ih, List.cons_append,
        List.cons.injEq]
      constructor
      · rintro ⟨rfl, post, rfl⟩; exact ⟨post, rfl, rfl⟩
      · rintro ⟨post, rfl, rfl⟩; exact ⟨rfl, post, rfl⟩

theorem containsSub_iff (p l : List Char) :
    containsSub p l = true ↔ ContainsSpec p l := by
  induction l with
  | nil =>
    simp only [containsSub, List.isEmpty_iff, ContainsSpec]
    constructor
    · rintro rfl; exact ⟨[], [], rfl⟩
    · rintro ⟨pre, post, h⟩
      exact (List.append_eq_nil.mp (List.append_eq_nil.mp h.symm).1).2
  | cons c t ih =>
    simp only [containsSub, Bool.or_eq_true, listStartsWith_iff, ih, ContainsSpec]
    constructor
    · rintro (⟨post, h⟩ | ⟨pre, post, h⟩)
      · exact ⟨[], post, by simpa using h⟩
      · exact ⟨c :: pre, post, by simp [h]⟩
    · rintro ⟨pre, post, h⟩
      cases pre with
      | nil => exact Or.inl ⟨post, by simpa using h⟩
      | cons x xs =>
        simp only [List.cons_append, List.cons.injEq] at h
        exact Or.inr ⟨xs, post, by simp [h.1, h.2]⟩

/-! ### station_id_from_url (claim C7) -/

/-- Python `l.rstrip("/")` on a character list. -/
def rstripSlash (l : List Char) : List Char :=
  (l.reverse.dropWhile (fun c => c = '/')).reverse

/-- Python `str.split("/")`: split on every slash, keeping empty parts
(`"".split("/") == [""]`). -/
def splitSlash : List Char → List (List Char)
  | [] => [[]]
  | c :: rest =>
    match splitSlash rest with
    | [] => [[]]
    | p :: ps => if c = '/' then [] :: p :: ps else (c :: p) :: ps

/-- Embeds `station_id_from_url` from `scrape_gas.py`:
`u.rstrip("/").split("/")[-1]`. -/
def station_id_from_url (u : String) : String :=
  ⟨(splitSlash (rstripSlash u.data)).getLastD []⟩

/-- Claim C7: appending a trailing slash to a station URL never changes the
computed station identifier. -/
theorem station_id_from_url_trailing_slash (u : String) :
    station_id_from_url u = station_id_from_url (u ++ "/") := by
  have hdata : (u ++ "/").data = u.data ++ ['/'] := rfl
  have hstrip : rstripSlash (u.data ++ ['/']) = rstripSlash u.data := by
    simp [rstripSlash, List.dropWhile]
  simp [station_id_from_url, hdata, hstrip]

/-! ### List helper lemmas for takeWhile/dropWhile -/

theorem length_dropWhile_le (p : Char → Bool) (l : List Char) :
    (l.dropWhile p).length ≤ l.length := by
  induction l with
  | nil => simp
  | cons a t ih =>
    rw [List.dropWhile_cons]
    split
    · exact Nat.le_succ_of_le ih
    · exact Nat.le_refl _

theorem takeWhile_all_append (p : Char → Bool) (l₁ l₂ : List Char)
    (h : ∀ x ∈ l₁, p x = true) :
    (l₁ ++ l₂).takeWhile p = l₁ ++ l₂.takeWhile p := by
  induction l₁ with
  | nil => simp
  | cons a t ih =>
    have ha : p a = true := h a (by simp)
    simp only [List.cons_append, List.takeWhile_cons, ha, if_true]
    rw [ih (fun x hx => h x (by simp [hx]))]

theorem dropWhile_all_append (p : Char → Bool) (l₁ l₂ : List Char)
    (h : ∀ x ∈ l₁, p x = true) :
    (l₁ ++ l₂).dropWhile p = l₂.dropWhile p := by
  induction l₁ with
  | nil => simp
  | cons a t ih =>
    have ha : p a = true := h a (by simp)
    simp only [List.cons_append, List.dropWhile_cons, ha, if_true]
    exact ih (fun x hx => h x (by simp [hx]))

theorem head?_dropWhile (p : Char → Bool) (l : List Char) (c : Char)
    (h : (l.dropWhile p).head? = some c) : p c = false := by
  induction l with
  | nil => simp at h
  | cons a t ih =>
    rw [List.dropWhile_cons] at h
    by_cases ha : p a
    · exact ih (by simpa [ha] using h)
    · rw [if_neg ha] at h
      simp only [List.head?_cons, Option.some.injEq] at h
      subst h
      exact Bool.eq_false_iff.mpr (by simpa using ha)

theorem takeWhile_stuck_append (p : Char → Bool) (l₁ l₂ : List Char)
    (h : l₁.dropWhile p ≠ []) :
    (l₁ ++ l₂).takeWhile p = l₁.takeWhile p ∧
    (l₁ ++ l₂).dropWhile p = l₁.dropWhile p ++ l₂ := by
  induction l₁ with
  | nil => simp at h
  | cons a t ih =>
    by_cases ha : p a
    · rw [List.dropWhile_cons, if_pos ha] at h
      have := ih h
      simp only [List.cons_append, List.takeWhile_cons, List.dropWhile_cons, ha, if_true]
      exact ⟨by rw [this.1], this.2⟩
    · simp [List.takeWhile_cons, List.dropWhile_cons, ha]

theorem getLast?_dropWhile (p : Char → Bool) (l : List Char)
    (h : l.dropWhile p ≠ []) : (l.dropWhile p).getLast? = l.getLast? := by
  conv_rhs => rw [← List.takeWhile_append_dropWhile p l]
  exact (List.getLast?_append_of_ne_nil _ h).symm

theorem getLast?_cons_of_ne_nil (c : Char) (l : List Char) (h : l ≠ []) :
    (c :: l).getLast? = l.getLast? := by
  have : c :: l = [c] ++ l := rfl
  rw [this]
  exact List.getLast?_append_of_ne_nil _ h

/-! ### Address classifier (claim C1) -/

/-- Street-suffix token set from `scrape_gas.py` (`STREET_SUFFIXES`). -/
def STREET_SUFFIXES : List (List Char) :=
  ["st".data, "street".data, "ave".data, "avenue".data, "blvd".data,
   "boulevard".data, "rd".data, "road".data, "dr".data, "drive".data,
   "ln".data, "lane".data, "ct".data, "court".data, "pl".data, "place".data,
   "way".data, "pkwy".data, "parkway".data, "hwy".data, "highway".data,
   "cir".data, "circle".data, "trl".data, "trail".data]

/-- Rejection phrases from `scrape_gas.py` (`bad_address_phrases`). -/
def bad_address_phrases : List (List Char) :=
  ["top ".data, "best gas".data, "gas prices".data, "cheap fuel".data,
   "stations in".data, "in ".data]

/-- Embeds Python `re.findall(r"[a-zA-Z]+", ·)`: the list of maximal runs of
ASCII letters. -/
def alphaTokens : List Char → List (List Char)
  | [] => []
  | c :: rest =>
    if c.isAlpha then
      (c :: rest.takeWhile Char.isAlpha) :: alphaTokens (rest.dropWhile Char.isAlpha)
    else
      alphaTokens rest
termination_by l => l.length
decreasing_by
  · simp only [List.length_cons]
    exact Nat.lt_succ_of_le (length_dropWhile_le _ _)
  · simp only [List.length_cons]
    exact Nat.lt_succ_self _

/-- Embeds Python `re.match(r"^\d{1,6}\s", ·) is not None`: a run of one to
six digits followed by a whitespace character at the start. -/
def startsHouseNum (s : List Char) : Bool :=
  let d := s.takeWhile Char.isDigit
  decide (1 ≤ d.length) && decide (d.length ≤ 6) &&
    (match s.dropWhile Char.isDigit with
     | [] => false
     | c :: _ => isPySpace c)

/-- Embeds `looks_like_address` from `scrape_gas.py`. -/
def looks_like_address (line : String) : Bool :=
  let s := pystrip line.data
  if s.isEmpty then false
  else
    let low := lowerStr s
    if (bad_address_phrases.any fun p => containsSub p low) &&
        containsSub (" ca".data) low then
      false
    else if !startsHouseNum s then false
    else (alphaTokens low).any fun t => STREET_SUFFIXES.any fun suf => suf == t

/-- Specification form of the house-number check: the line is a run of one to
six digits, then a whitespace character, then anything. -/
def HouseNumSpec (s : List Char) : Prop :=
  ∃ d c t, s = d ++ c :: t ∧ d ≠ [] ∧ d.length ≤ 6 ∧
    (∀ x ∈ d, x.isDigit = true) ∧ isPySpace c = true

/-- Specification form of an alphabetic token: `tok` is a nonempty maximal run
of ASCII letters inside `l`. -/
def MaxAlphaRun (tok l : List Char) : Prop :=
  tok ≠ [] ∧ (∀ x ∈ tok, x.isAlpha = true) ∧
  ∃ pre post, l = pre ++ tok ++ post ∧
    (∀ x, pre.getLast? = some x → x.isAlpha = false) ∧
    (∀ x, post.head? = some x → x.isAlpha = false)

/-- Specification form of the title-line rejection: a rejection phrase occurs
in the lowercased line together with the substring `" ca"`. -/
def RejectSpec (low : List Char) : Prop :=
  (∃ p ∈ bad_address_phrases, ContainsSpec p low) ∧ ContainsSpec (" ca".data) low

theorem isPySpace_not_digit (c : Char) (h : isPySpace c = true) :
    c.isDigit = false := by
  simp only [isPySpace, Bool.or_eq_true, decide_eq_true_eq] at h
  rcases h with ((((h | h) | h) | h) | h) | h <;> subst h <;> decide

theorem startsHouseNum_iff (s : List Char) :
    startsHouseNum s = true ↔ HouseNumSpec s := by
  constructor
  · intro h
    simp only [startsHouseNum, Bool.and_eq_true, decide_eq_true_eq] at h
    obtain ⟨⟨h1, h6⟩, hsp⟩ := h
    set d := s.takeWhile Char.isDigit with hd
    rcases hdrop : s.dropWhile Char.isDigit with _ | ⟨c, t⟩
    · rw [hdrop] at hsp; exact absurd hsp (by simp)
    · rw [hdrop] at hsp
      refine ⟨d, c, t, ?_, ?_, h6, ?_, hsp⟩
      · rw [← List.takeWhile_append_dropWhile Char.isDigit s, ← hd, hdrop]
      · intro hnil; rw [hnil] at h1; simp at h1
      · exact fun x hx => List.mem_takeWhile_imp hx
  · rintro ⟨d, c, t, rfl, hne, h6, hdig, hsp⟩
    have hcd : Char.isDigit c = false := isPySpace_not_digit c hsp
    have htake : (d ++ c :: t).takeWhile Char.isDigit = d := by
      rw [takeWhile_all_append _ _ _ hdig, List.takeWhile_cons, hcd]
      simp
    have hdrop : (d ++ c :: t).dropWhile Char.isDigit = c :: t := by
      rw [dropWhile_all_append _ _ _ hdig, List.dropWhile_cons, hcd]
      simp
    simp only [startsHouseNum, htake, hdrop, Bool.and_eq_true, decide_eq_true_eq]
    exact ⟨⟨Nat.one_le_iff_ne_zero.mpr (by simpa using hne), h6⟩, hsp⟩

theorem maxAlphaRun_of_mem :
    ∀ n (l : List Char), l.length ≤ n → ∀ tok, tok ∈ alphaTokens l → MaxAlphaRun tok l := by
  intro n
  induction n with
  | zero =>
    intro l hl tok hm
    have : l = [] := List.length_eq_zero.mp (Nat.le_zero.mp hl)
    subst this
    simp [alphaTokens] at hm
  | succ n ih =>
    intro l hl tok hm
    cases l with
    | nil => simp [alphaTokens] at hm
    | cons c rest =>
      simp only [List.length_cons, Nat.succ_le_succ_iff] at hl
      by_cases hc : c.isAlpha = true
      · simp only [alphaTokens, hc, if_true] at hm
        rcases List.mem_cons.mp hm with h | h
        · subst h
          refine ⟨by simp, ?_, [], rest.dropWhile Char.isAlpha, ?_, by simp, ?_⟩
          · intro x hx
            rcases List.mem_cons.mp hx with rfl | hx
            · exact hc
            · exact List.mem_takeWhile_imp hx
          · simp [List.takeWhile_append_dropWhile]
          · intro x hx
            exact head?_dropWhile _ _ _ hx
        · have hlen : (rest.dropWhile Char.isAlpha).length ≤ n :=
            le_trans (length_dropWhile_le _ _) hl
          obtain ⟨hne, halpha, pre, post, hdecomp, hpre, hpost⟩ := ih _ hlen tok h
          have hprene : pre ≠ [] := by
            rintro rfl
            rcases tok with _ | ⟨a, tok'⟩
            · exact hne rfl
            · have hhead : (rest.dropWhile Char.isAlpha).head? = some a := by
                rw [hdecomp]; simp
              have hfalse := head?_dropWhile Char.isAlpha rest a hhead
              exact absurd (halpha a (by simp)) (by simp [hfalse])
          refine ⟨hne, halpha, (c :: rest.takeWhile Char.isAlpha) ++ pre, post, ?_, ?_, hpost⟩
          · conv_lhs => rw [show c :: rest =
              c :: (rest.takeWhile Char.isAlpha ++ rest.dropWhile Char.isAlpha) from by
                rw [List.takeWhile_append_dropWhile]]
            rw [hdecomp]
            simp [List.append_assoc]
          · intro x hx
            rw [List.getLast?_append_of_ne_nil _ hprene] at hx
            exact hpre x hx
      · rw [Bool.not_eq_true] at hc
        simp only [alphaTokens, hc, Bool.false_eq_true, if_false] at hm
        obtain ⟨hne, halpha, pre, post, hdecomp, hpre, hpost⟩ := ih rest hl tok hm
        refine ⟨hne, halpha, c :: pre, post, by simp [hdecomp], ?_, hpost⟩
        intro x hx
        by_cases hpe : pre = []
        · subst hpe
          simp only [List.getLast?_singleton, Option.some.injEq] at hx
          subst hx
          exact hc
        · rw [getLast?_cons_of_ne_nil _ _ hpe] at hx
          exact hpre x hx

theorem mem_alphaTokens_pre_nil (tok post : List Char) (hne : tok ≠ [])
    (halpha : ∀ x ∈ tok, x.isAlpha = true)
    (hpost : ∀ x, post.head? = some x → x.isAlpha = false) :
    tok ∈ alphaTokens (tok ++ post) := by
  rcases tok with _ | ⟨a, tok'⟩
  · exact absurd rfl hne
  · have ha : a.isAlpha = true := halpha a (by simp)
    have htok' : ∀ x ∈ tok', Char.isAlpha x = true := fun x hx => halpha x (by simp [hx])
    have htake : (tok' ++ post).takeWhile Char.isAlpha = tok' := by
      rw [takeWhile_all_append _ _ _ htok']
      rcases post with _ | ⟨c, cs⟩
      · simp
      · rw [List.takeWhile_cons, hpost c rfl]
        simp
    simp only [List.cons_append, alphaTokens, ha, if_true, htake]
    exact List.mem_cons_self _ _

theorem mem_alphaTokens_of_maxAlphaRun :
    ∀ n (pre tok post : List Char), pre.length ≤ n → tok ≠ [] →
      (∀ x ∈ tok, x.isAlpha = true) →
      (∀ x, pre.getLast? = some x → x.isAlpha = false) →
      (∀ x, post.head? = some x → x.isAlpha = false) →
      tok ∈ alphaTokens (pre ++ tok ++ post) := by
  intro n
  induction n with
  | zero =>
    intro pre tok post hl hne ha hpre hpost
    have : pre = [] := List.length_eq_zero.mp (Nat.le_zero.mp hl)
    subst this
    simpa using mem_alphaTokens_pre_nil tok post hne ha hpost
  | succ n ih =>
    intro pre tok post hl hne ha hpre hpost
    rcases pre with _ | ⟨a, pre'⟩
    · simpa using mem_alphaTokens_pre_nil tok post hne ha hpost
    · simp only [List.length_cons, Nat.succ_le_succ_iff] at hl
      have harr : (a :: pre') ++ tok ++ post = a :: (pre' ++ (tok ++ post)) := by simp
      by_cases hA : a.isAlpha = true
      · have hpre' : pre' ≠ [] := by
          rintro rfl
          have hfa := hpre a (by simp)
          rw [hA] at hfa
          exact absurd hfa (by simp)
        have hdne : pre'.dropWhile Char.isAlpha ≠ [] := by
          intro hnil
          have hall : ∀ x ∈ pre', Char.isAlpha x = true := by
            intro x hx
            exact List.dropWhile_eq_nil_iff.mp hnil x hx
          obtain ⟨x, hx⟩ : ∃ x, pre'.getLast? = some x := by
            cases hgl : pre'.getLast? with
            | none => exact absurd (List.getLast?_eq_none_iff.mp hgl) hpre'
            | some x => exact ⟨x, rfl⟩
          have hxa := hall x (List.mem_of_mem_getLast? hx)
          have hxf : Char.isAlpha x = false := by
            apply hpre
            rw [getLast?_cons_of_ne_nil _ _ hpre']
            exact hx
          rw [hxa] at hxf
          exact absurd hxf (by simp)
        have hsplit := takeWhile_stuck_append Char.isAlpha pre' (tok ++ post) hdne
        rw [harr]
        simp only [alphaTokens, hA, if_true]
        apply List.mem_cons_of_mem
        rw [hsplit.2]
        have hlen2 : (pre'.dropWhile Char.isAlpha).length ≤ n :=
          le_trans (length_dropWhile_le _ _) hl
        have hpre2 : ∀ x, (pre'.dropWhile Char.isAlpha).getLast? = some x →
            x.isAlpha = false := by
          intro x hx
          rw [getLast?_dropWhile _ _ hdne] at hx
          apply hpre
          rw [getLast?_cons_of_ne_nil _ _ hpre']
          exact hx
        have := ih (pre'.dropWhile Char.isAlpha) tok post hlen2 hne ha hpre2 hpost
        simpa [List.append_assoc] using this
      · rw [Bool.not_eq_true] at hA
        rw [harr]
        simp only [alphaTokens, hA, Bool.false_eq_true, if_false]
        have hpre2 : ∀ x, pre'.getLast? = some x → x.isAlpha = false := by
          intro x hx
          by_cases hpe : pre' = []
          · subst hpe; simp at hx
          · apply hpre
            rw [getLast?_cons_of_ne_nil _ _ hpe]
            exact hx
        have := ih pre' tok post hl hne ha hpre2 hpost
        simpa [List.append_assoc] using this

/-- Membership in the token list computed by the code coincides with being a
maximal alphabetic run of the line. -/
theorem mem_alphaTokens_iff (tok l : List Char) :
    tok ∈ alphaTokens l ↔ MaxAlphaRun tok l := by
  constructor
  · exact fun h => maxAlphaRun_of_mem l.length l (Nat.le_refl _) tok h
  · rintro ⟨hne, ha, pre, post, rfl, hpre, hpost⟩
    exact mem_alphaTokens_of_maxAlphaRun pre.length pre tok post (Nat.le_refl _)
      hne ha hpre hpost

/-- Claim C1: `looks_like_address(L)` is true iff the whitespace-trimmed line
starts with a run of one to six digits followed by whitespace, at least one
maximal alphabetic token of the lowercased trimmed line is in the fixed
street-suffix set, and the lowercased trimmed line does not simultaneously
contain a rejection phrase together with the substring `" ca"`. Blank input
trims to the empty list, for which the house-number condition is
unsatisfiable, so blank input returns false; each conjunct failing alone makes
the result false. -/
theorem looks_like_address_iff (line : String) :
    looks_like_address line = true ↔
      (HouseNumSpec (pystrip line.data) ∧
       (∃ tok, MaxAlphaRun tok (lowerStr (pystrip line.data)) ∧
          tok ∈ STREET_SUFFIXES) ∧
       ¬ RejectSpec (lowerStr (pystrip line.data))) := by
  simp only [looks_like_address]
  set s := pystrip line.data with hs
  set low := lowerStr s with hlow
  have hrejIff : ((bad_address_phrases.any fun p => containsSub p low) &&
      containsSub (" ca".data) low) = true ↔ RejectSpec low := by
    rw [Bool.and_eq_true, List.any_eq_true]
    unfold RejectSpec
    constructor
    · rintro ⟨⟨p, hp, hc⟩, hca⟩
      exact ⟨⟨p, hp, (containsSub_iff _ _).mp hc⟩, (containsSub_iff _ _).mp hca⟩
    · rintro ⟨⟨p, hp, hc⟩, hca⟩
      exact ⟨⟨p, hp, (containsSub_iff _ _).mpr hc⟩, (containsSub_iff _ _).mpr hca⟩
  by_cases hemp : s.isEmpty = true
  · rw [if_pos hemp]
    constructor
    · intro h
      exact absurd h (by simp)
    · rintro ⟨⟨d, c, t, hdecomp, hdne, _, _, _⟩, _, _⟩
      have hnil : s = [] := List.isEmpty_iff.mp hemp
      rw [hnil] at hdecomp
      rcases d with _ | ⟨x, xs⟩
      · simp at hdecomp
      · simp at hdecomp
  · rw [if_neg hemp]
    by_cases hrej : ((bad_address_phrases.any fun p => containsSub p low) &&
        containsSub (" ca".data) low) = true
    · rw [if_pos hrej]
      constructor
      · intro h
        exact absurd h (by simp)
      · rintro ⟨_, _, hnot⟩
        exact absurd (hrejIff.mp hrej) hnot
    · rw [if_neg hrej]
      by_cases hnum : startsHouseNum s = true
      · rw [if_neg (by simp [hnum])]

        constructor
        · intro h
          rw [List.any_eq_true] at h
          obtain ⟨tok, htok, hsuf⟩ := h
          rw [List.any_eq_true] at hsuf
          obtain ⟨suf, hsufmem, hbeq⟩ := hsuf
          rw [beq_iff_eq] at hbeq
          exact ⟨(startsHouseNum_iff s).mp hnum,
            ⟨tok, (mem_alphaTokens_iff tok low).mp htok, hbeq ▸ hsufmem⟩,
            fun hr => hrej (hrejIff.mpr hr)⟩
        · rintro ⟨_, ⟨tok, hrun, hmem⟩, _⟩
          rw [List.any_eq_true]
          refine ⟨tok, (mem_alphaTokens_iff tok low).mpr hrun, ?_⟩
          rw [List.any_eq_true]
          exact ⟨tok, hmem, by simp⟩
      · rw [Bool.not_eq_true] at hnum
        rw [if_pos (by simp [hnum])]
        constructor
        · intro h
          exact absurd h (by simp)
        · rintro ⟨hh, _, _⟩
          have := (startsHouseNum_iff s).mpr hh
          rw [hnum] at this
          exact absurd this (by simp)

/-- Witness for claim C1 at the concrete line `"123 Main St"`: the spec-side
conditions hold there, and the theorem transfers them to the code. -/
theorem looks_like_address_iff_witness : looks_like_address "123 Main St" = true := by
  apply (looks_like_address_iff "123 Main St").mpr
  refine ⟨⟨['1', '2', '3'], ' ', "Main St".data, by decide, by decide, by decide,
      by decide, by decide⟩, ⟨"st".data, ⟨by decide, by decide,
      "123 main ".data, [], by decide, by decide, by decide⟩, by decide⟩, ?_⟩
  rintro ⟨-, hca⟩
  have hcontains : containsSub (" ca".data) (lowerStr (pystrip ("123 Main St").data)) = true :=
    (containsSub_iff _ _).mpr hca
  revert hcontains
  decide

/-! ### More list helpers -/

theorem find?_append_some {α : Type} (p : α → Bool) (l₁ l₂ : List α) (r : α)
    (h : l₁.find? p = some r) : (l₁ ++ l₂).find? p = some r := by
  induction l₁ with
  | nil => simp at h
  | cons a t ih =>
    by_cases hp : p a
    · rw [List.find?_cons_of_pos _ hp] at h
      rw [List.cons_append, List.find?_cons_of_pos _ hp]
      exact h
    · rw [List.find?_cons_of_neg _ hp] at h
      rw [List.cons_append, List.find?_cons_of_neg _ hp]
      exact ih h

theorem find?_append_none {α : Type} (p : α → Bool) (l₁ l₂ : List α)
    (h : l₁.find? p = none) : (l₁ ++ l₂).find? p = l₂.find? p := by
  induction l₁ with
  | nil => simp
  | cons a t ih =>
    by_cases hp : p a
    · rw [List.find?_cons_of_pos _ hp] at h
      simp at h
    · rw [List.find?_cons_of_neg _ hp] at h
      rw [List.cons_append, List.find?_cons_of_neg _ hp]
      exact ih h

theorem map_eq_self_of {α : Type} (f : α → α) (l : List α) (h : ∀ x ∈ l, f x = x) :
    l.map f = l := by
  induction l with
  | nil => rfl
  | cons a t ih =>
    rw [List.map_cons, h a (by simp), ih (fun x hx => h x (by simp [hx]))]

/-! ### Data model: observations and combined records -/

/-- Fuel grades, in the order `combine_by_station` iterates them. -/
inductive Grade where
  | regular
  | midgrade
  | premium
  | diesel
deriving DecidableEq, Repr

/-- One scraped (station, grade) observation: the dict built by
`scrape_city_page_current_dom`. The `price` key always holds a parsed float
there; `Option` keeps the `r.get("price")` null case representable. -/
structure Obs where
  name : String
  station_url : String
  price : Option ℚ
  address : String
  updated : String
deriving DecidableEq, Repr

/-- The per-station record built by `combine_by_station`. A grade field of
`none` models the dict key being absent; `some v` models the key set to `v`
(where `v` itself may be Python `None` for prices). -/
structure Combined where
  name : String
  station_url : String
  address : String
  regular : Option (Option ℚ) := none
  midgrade : Option (Option ℚ) := none
  premium : Option (Option ℚ) := none
  diesel : Option (Option ℚ) := none
  regular_updated : Option String := none
  midgrade_updated : Option String := none
  premium_updated : Option String := none
  diesel_updated : Option String := none
deriving DecidableEq, Repr

/-- The grade-price dict entry of a combined record. -/
def gradePrice (c : Combined) : Grade → Option (Option ℚ)
  | Grade.regular => c.regular
  | Grade.midgrade => c.midgrade
  | Grade.premium => c.premium
  | Grade.diesel => c.diesel

/-- The `<grade>_updated` dict entry of a combined record. -/
def gradeUpdated (c : Combined) : Grade → Option String
  | Grade.regular => c.regular_updated
  | Grade.midgrade => c.midgrade_updated
  | Grade.premium => c.premium_updated
  | Grade.diesel => c.diesel_updated

/-- Embeds the two assignments `combined[sid][grade] = r.get("price")` and
`combined[sid][f"{grade}_updated"] = ...` of `combine_by_station`. -/
def setGrade (c : Combined) (g : Grade) (p : Option ℚ) (u : String) : Combined :=
  match g with
  | Grade.regular => { c with regular := some p, regular_updated := some u }
  | Grade.midgrade => { c with midgrade := some p, midgrade_updated := some u }
  | Grade.premium => { c with premium := some p, premium_updated := some u }
  | Grade.diesel => { c with diesel := some p, diesel_updated := some u }

/-- Station identifier of an observation. -/
def sidOfObs (r : Obs) : String := station_id_from_url r.station_url

/-- The record installed by `combined.setdefault(sid, {...})`. -/
def initRecord (r : Obs) : Combined :=
  { name := r.name, station_url := r.station_url, address := r.address }

/-- One iteration of the inner loop of `combine_by_station`, acting on the
insertion-ordered dict `combined` (an association list). -/
def combineStep (inc : Bool) (st : List (String × Combined)) (x : Grade × Obs) :
    List (String × Combined) :=
  let sid := sidOfObs x.2
  let st1 := if st.any fun e => decide (e.1 = sid) then st
             else st ++ [(sid, initRecord x.2)]
  st1.map fun e =>
    if e.1 = sid then (e.1, setGrade e.2 x.1 x.2.price (if inc then x.2.updated else ""))
    else e

/-- The stream of (grade, observation) pairs in the order `combine_by_station`
processes them: grades regular, midgrade, premium, diesel, each in list
order. -/
def tagged (reg mid prem dies : List Obs) : List (Grade × Obs) :=
  reg.map (fun r => (Grade.regular, r)) ++ mid.map (fun r => (Grade.midgrade, r)) ++
    prem.map (fun r => (Grade.premium, r)) ++ dies.map (fun r => (Grade.diesel, r))

/-- Embeds `combine_by_station` from `scrape_gas.py`: fold the grade streams
into a dict keyed by station id, and return `list(combined.values())`. -/
def combine_by_station (reg mid prem dies : List Obs) (include_updates : Bool) :
    List Combined :=
  ((tagged reg mid prem dies).foldl (combineStep include_updates) []).map Prod.snd

/-- Does a stream element carry station id `sid`? -/
def matchKey (sid : String) (x : Grade × Obs) : Bool := decide (sidOfObs x.2 = sid)

/-- Does a stream element carry grade `g` and station id `sid`? -/
def matchGradeKey (g : Grade) (sid : String) (x : Grade × Obs) : Bool :=
  decide (x.1 = g) && decide (sidOfObs x.2 = sid)

/-- Invariant of the `combine_by_station` fold: after processing the stream
prefix `pre`, the dict state `st` has distinct keys, covers exactly the ids of
`pre`, carries first-seen name/url/address per id, and each grade field equals
the last matching observation's data. -/
def CombineInv (inc : Bool) (pre : List (Grade × Obs))
    (st : List (String × Combined)) : Prop :=
  (st.map Prod.fst).Nodup ∧
  (∀ sid, (∃ e ∈ st, e.1 = sid) ↔ ∃ x ∈ pre, sidOfObs x.2 = sid) ∧
  (∀ e ∈ st, ∃ r, pre.find? (matchKey e.1) = some r ∧
      e.2.name = r.2.name ∧ e.2.station_url = r.2.station_url ∧
      e.2.address = r.2.address ∧ sidOfObs r.2 = e.1) ∧
  (∀ e ∈ st, ∀ g,
      gradePrice e.2 g =
        ((pre.filter (matchGradeKey g e.1)).getLast?).map (fun x => x.2.price) ∧
      gradeUpdated e.2 g =
        ((pre.filter (matchGradeKey g e.1)).getLast?).map
          (fun x => if inc then x.2.updated else ""))

theorem setGrade_gradePrice_same (c : Combined) (g : Grade) (p : Option ℚ)
    (u : String) : gradePrice (setGrade c g p u) g = some p := by
  cases g <;> rfl

theorem setGrade_gradeUpdated_same (c : Combined) (g : Grade) (p : Option ℚ)
    (u : String) : gradeUpdated (setGrade c g p u) g = some u := by
  cases g <;> rfl

theorem setGrade_gradePrice_other (c : Combined) (g g' : Grade) (p : Option ℚ)
    (u : String) (h : g' ≠ g) : gradePrice (setGrade c g p u) g' = gradePrice c g' := by
  cases g <;> cases g' <;> first | rfl | exact absurd rfl h

theorem setGrade_gradeUpdated_other (c : Combined) (g g' : Grade) (p : Option ℚ)
    (u : String) (h : g' ≠ g) :
    gradeUpdated (setGrade c g p u) g' = gradeUpdated c g' := by
  cases g <;> cases g' <;> first | rfl | exact absurd rfl h

theorem setGrade_name (c : Combined) (g : Grade) (p : Option ℚ) (u : String) :
    (setGrade c g p u).name = c.name := by
  cases g <;> rfl

theorem setGrade_station_url (c : Combined) (g : Grade) (p : Option ℚ) (u : String) :
    (setGrade c g p u).station_url = c.station_url := by
  cases g <;> rfl

theorem setGrade_address (c : Combined) (g : Grade) (p : Option ℚ) (u : String) :
    (setGrade c g p u).address = c.address := by
  cases g <;> rfl

theorem initRecord_gradePrice (r : Obs) (g : Grade) :
    gradePrice (initRecord r) g = none := by
  cases g <;> rfl

theorem initRecord_gradeUpdated (r : Obs) (g : Grade) :
    gradeUpdated (initRecord r) g = none := by
  cases g <;> rfl

theorem combineStep_inv (inc : Bool) (pre : List (Grade × Obs))
    (st : List (String × Combined)) (x : Grade × Obs) (h : CombineInv inc pre st) :
    CombineInv inc (pre ++ [x]) (combineStep inc st x) := by
  obtain ⟨hnodup, hcover, hfirst, hgrade⟩ := h
  by_cases hmem : (st.any fun e => decide (e.1 = sidOfObs x.2)) = true
  · -- the station id is already a key: only the grade fields of its record change
    have hexist : ∃ e ∈ st, e.1 = sidOfObs x.2 := by
      rw [List.any_eq_true] at hmem
      simpa using hmem
    have hstep : combineStep inc st x = st.map fun e =>
        if e.1 = sidOfObs x.2 then
          (e.1, setGrade e.2 x.1 x.2.price (if inc then x.2.updated else ""))
        else e := by
      simp only [combineStep, hmem, if_true]
    rw [hstep]
    have hU1 : ∀ e : String × Combined,
        ((fun e : String × Combined =>
          if e.1 = sidOfObs x.2 then
            (e.1, setGrade e.2 x.1 x.2.price (if inc then x.2.updated else ""))
          else e) e).1 = e.1 := by
      intro e
      by_cases he : e.1 = sidOfObs x.2 <;> simp [he]
    refine ⟨?_, ?_, ?_, ?_⟩
    · rw [List.map_map]
      have : ∀ e ∈ st, (Prod.fst ∘ fun e : String × Combined =>
          if e.1 = sidOfObs x.2 then
            (e.1, setGrade e.2 x.1 x.2.price (if inc then x.2.updated else ""))
          else e) e = Prod.fst e := fun e _ => hU1 e
      rw [List.map_congr_left this]
      exact hnodup
    · intro s
      have hmm : (∃ e' ∈ st.map (fun e : String × Combined =>
          if e.1 = sidOfObs x.2 then
            (e.1, setGrade e.2 x.1 x.2.price (if inc then x.2.updated else ""))
          else e), e'.1 = s) ↔ ∃ e ∈ st, e.1 = s := by
        constructor
        · rintro ⟨e', he', hs⟩
          obtain ⟨e, he, rfl⟩ := List.mem_map.mp he'
          exact ⟨e, he, by rw [← hU1 e]; exact hs⟩
        · rintro ⟨e, he, hs⟩
          exact ⟨_, List.mem_map_of_mem _ he, by rw [hU1 e]; exact hs⟩
      rw [hmm]
      constructor
      · rintro ⟨e, he, rfl⟩
        obtain ⟨y, hy, hys⟩ := (hcover e.1).mp ⟨e, he, rfl⟩
        exact ⟨y, by simp [hy], hys⟩
      · rintro ⟨y, hy, hys⟩
        rcases List.mem_append.mp hy with hy | hy
        · exact (hcover s).mpr ⟨y, hy, hys⟩
        · have hyx : y = x := by simpa using hy
          obtain ⟨e, he, hes⟩ := hexist
          refine ⟨e, he, ?_⟩
          rw [hes, ← hyx, hys]
    · intro e' he'
      obtain ⟨e, he, rfl⟩ := List.mem_map.mp he'
      obtain ⟨r, hr, hname, hurl, haddr, hsid⟩ := hfirst e he
      refine ⟨r, ?_, ?_⟩
      · rw [hU1 e]
        exact find?_append_some _ _ _ _ hr
      · by_cases hesid : e.1 = sidOfObs x.2
        · rw [if_pos hesid]
          exact ⟨by simpa [setGrade_name] using hname,
                 by simpa [setGrade_station_url] using hurl,
                 by simpa [setGrade_address] using haddr, hsid⟩
        · rw [if_neg hesid]
          exact ⟨hname, hurl, haddr, hsid⟩
    · intro e' he' g
      obtain ⟨e, he, rfl⟩ := List.mem_map.mp he'
      have hrec := hgrade e he g
      rw [hU1 e, List.filter_append]
      by_cases hesid : e.1 = sidOfObs x.2
      · by_cases hg : g = x.1
        · have hfx : (List.filter (matchGradeKey g e.1) [x]) = [x] := by
            simp [matchGradeKey, hg, hesid]
          rw [hfx, List.getLast?_concat, if_pos hesid]
          subst hg
          exact ⟨by simp [setGrade_gradePrice_same],
                 by simp [setGrade_gradeUpdated_same]⟩
        · have hxg : x.1 ≠ g := fun hh => hg hh.symm
          have hfx : (List.filter (matchGradeKey g e.1) [x]) = [] := by
            simp [matchGradeKey, hxg]
          rw [hfx, List.append_nil, if_pos hesid]
          exact ⟨by simp [setGrade_gradePrice_other _ _ _ _ _ hg, hrec.1],
                 by simp [setGrade_gradeUpdated_other _ _ _ _ _ hg, hrec.2]⟩
      · have hxs : sidOfObs x.2 ≠ e.1 := fun hh => hesid hh.symm
        have hfx : (List.filter (matchGradeKey g e.1) [x]) = [] := by
          simp [matchGradeKey, hxs]
        rw [hfx, List.append_nil, if_neg hesid]
        exact hrec
  · -- new station id: a fresh record is appended, then its grade fields set
    have hnotin : ∀ e ∈ st, e.1 ≠ sidOfObs x.2 := by
      intro e he hcontra
      apply hmem
      rw [List.any_eq_true]
      exact ⟨e, he, by simp [hcontra]⟩
    have hpre_none : ∀ y ∈ pre, sidOfObs y.2 ≠ sidOfObs x.2 := by
      intro y hy hcontra
      obtain ⟨e, he, hes⟩ := (hcover (sidOfObs x.2)).mpr ⟨y, hy, hcontra⟩
      exact hnotin e he hes
    have hcond : (st.any fun e => decide (e.1 = sidOfObs x.2)) = false :=
      Bool.eq_false_iff.mpr hmem
    have hstep : combineStep inc st x = st ++
        [(sidOfObs x.2, setGrade (initRecord x.2) x.1 x.2.price
           (if inc then x.2.updated else ""))] := by
      simp only [combineStep, hcond, Bool.false_eq_true, if_false, List.map_append]
      congr 1
      · exact map_eq_self_of _ _ (fun e he => if_neg (hnotin e he))
      · simp
    rw [hstep]
    refine ⟨?_, ?_, ?_, ?_⟩
    · rw [List.map_append, List.nodup_append]
      refine ⟨hnodup, by simp, ?_⟩
      intro a ha hb
      simp only [List.map_cons, List.map_nil, List.mem_singleton] at hb
      subst hb
      obtain ⟨e, he, hfst⟩ := List.mem_map.mp ha
      exact hnotin e he hfst
    · intro s
      constructor
      · rintro ⟨e, he, rfl⟩
        rcases List.mem_append.mp he with he | he
        · obtain ⟨y, hy, hys⟩ := (hcover e.1).mp ⟨e, he, rfl⟩
          exact ⟨y, by simp [hy], hys⟩
        · have he2 : e = (sidOfObs x.2, setGrade (initRecord x.2) x.1 x.2.price
              (if inc then x.2.updated else "")) := by simpa using he
          rw [he2]
          exact ⟨x, by simp, rfl⟩
      · rintro ⟨y, hy, hys⟩
        rcases List.mem_append.mp hy with hy | hy
        · obtain ⟨e, he, hes⟩ := (hcover s).mpr ⟨y, hy, hys⟩
          exact ⟨e, by simp [he], hes⟩
        · have hyx : y = x := by simpa using hy
          refine ⟨(sidOfObs x.2, setGrade (initRecord x.2) x.1 x.2.price
              (if inc then x.2.updated else "")), by simp, ?_⟩
          rw [← hyx]
          exact hys
    · intro e' he'
      rcases List.mem_append.mp he' with he | he
      · obtain ⟨r, hr, hfields⟩ := hfirst e' he
        exact ⟨r, find?_append_some _ _ _ _ hr, hfields⟩
      · have he2 : e' = (sidOfObs x.2, setGrade (initRecord x.2) x.1 x.2.price
            (if inc then x.2.updated else "")) := by simpa using he
        rw [he2]
        have hnone : pre.find? (matchKey (sidOfObs x.2)) = none := by
          rw [List.find?_eq_none]
          intro y hy
          simp only [matchKey, decide_eq_true_eq]
          exact hpre_none y hy
        refine ⟨x, ?_, ?_, ?_, ?_, rfl⟩
        · rw [find?_append_none _ _ _ hnone]
          rw [List.find?_cons_of_pos _ (by simp [matchKey])]
        · simp [setGrade_name, initRecord]
        · simp [setGrade_station_url, initRecord]
        · simp [setGrade_address, initRecord]
    · intro e' he' g
      rcases List.mem_append.mp he' with he | he
      · have hrec := hgrade e' he g
        have hxs : sidOfObs x.2 ≠ e'.1 := fun hh => hnotin e' he hh.symm
        have hfx : (List.filter (matchGradeKey g e'.1) [x]) = [] := by
          simp [matchGradeKey, hxs]
        rw [List.filter_append, hfx, List.append_nil]
        exact hrec
      · have he2 : e' = (sidOfObs x.2, setGrade (initRecord x.2) x.1 x.2.price
            (if inc then x.2.updated else "")) := by simpa using he
        rw [he2]
        have hfpre : pre.filter (matchGradeKey g (sidOfObs x.2)) = [] := by
          rw [List.filter_eq_nil_iff]
          intro y hy
          simp only [matchGradeKey, Bool.and_eq_true, decide_eq_true_eq]
          rintro ⟨-, h2⟩
          exact hpre_none y hy h2
        rw [List.filter_append, hfpre, List.nil_append]
        by_cases hg : g = x.1
        · have hfx : (List.filter (matchGradeKey g (sidOfObs x.2)) [x]) = [x] := by
            simp [matchGradeKey, hg]
          rw [hfx]
          subst hg
          exact ⟨by simp [setGrade_gradePrice_same],
                 by simp [setGrade_gradeUpdated_same]⟩
        · have hxg : x.1 ≠ g := fun hh => hg hh.symm
          have hfx : (List.filter (matchGradeKey g (sidOfObs x.2)) [x]) = [] := by
            simp [matchGradeKey, hxg]
          rw [hfx]
          exact ⟨by simp [setGrade_gradePrice_other _ _ _ _ _ hg, initRecord_gradePrice],
                 by simp [setGrade_gradeUpdated_other _ _ _ _ _ hg, initRecord_gradeUpdated]⟩

theorem foldl_combineStep_inv (inc : Bool) :
    ∀ (l pre : List (Grade × Obs)) (st : List (String × Combined)),
      CombineInv inc pre st → CombineInv inc (pre ++ l) (l.foldl (combineStep inc) st) := by
  intro l
  induction l with
  | nil =>
    intro pre st h
    simpa using h
  | cons a t ih =>
    intro pre st h
    have h1 := combineStep_inv inc pre st a h
    have h2 := ih (pre ++ [a]) (combineStep inc st a) h1
    simpa [List.append_assoc] using h2

theorem combineInv_nil (inc : Bool) : CombineInv inc [] [] := by
  unfold CombineInv
  refine ⟨by simp, by simp, by simp, by simp⟩

theorem combine_by_station_inv (reg mid prem dies : List Obs) (inc : Bool) :
    CombineInv inc (tagged reg mid prem dies)
      ((tagged reg mid prem dies).foldl (combineStep inc) []) := by
  simpa using foldl_combineStep_inv inc (tagged reg mid prem dies) [] [] (combineInv_nil inc)

theorem combine_state_key (reg mid prem dies : List Obs) (inc : Bool) :
    ∀ e ∈ (tagged reg mid prem dies).foldl (combineStep inc) [],
      station_id_from_url e.2.station_url = e.1 := by
  intro e he
  obtain ⟨r, _, _, hurl, _, hsid⟩ :=
    (combine_by_station_inv reg mid prem dies inc).2.2.1 e he
  rw [hurl]
  exact hsid

/-- Claim C2: `combine_by_station` produces exactly one record per station
identifier (identifiers of output records are pairwise distinct and cover
exactly the identifiers of the input stream); the name, station_url and
address of a record are those of the first observation carrying its
identifier, in grade order regular, midgrade, premium, diesel then list
order, so later observations never overwrite them; and each grade's price
field equals the price of the last observation of that grade with that
identifier, i.e. every observation sets/overwrites its own grade's price. -/
theorem combine_by_station_spec (reg mid prem dies : List Obs) (inc : Bool) :
    ((combine_by_station reg mid prem dies inc).map
        (fun c => station_id_from_url c.station_url)).Nodup ∧
    (∀ sid, (∃ c ∈ combine_by_station reg mid prem dies inc,
        station_id_from_url c.station_url = sid) ↔
      (∃ x ∈ tagged reg mid prem dies, sidOfObs x.2 = sid)) ∧
    (∀ c ∈ combine_by_station reg mid prem dies inc,
      ∃ r, (tagged reg mid prem dies).find?
          (matchKey (station_id_from_url c.station_url)) = some r ∧
        c.name = r.2.name ∧ c.station_url = r.2.station_url ∧
        c.address = r.2.address) ∧
    (∀ c ∈ combine_by_station reg mid prem dies inc, ∀ g,
      gradePrice c g =
        (((tagged reg mid prem dies).filter
            (matchGradeKey g (station_id_from_url c.station_url))).getLast?).map
          (fun x => x.2.price)) := by
  have inv := combine_by_station_inv reg mid prem dies inc
  have hkey := combine_state_key reg mid prem dies inc
  obtain ⟨hnodup, hcover, hfirst, hgrade⟩ := inv
  refine ⟨?_, ?_, ?_, ?_⟩
  · unfold combine_by_station
    rw [List.map_map]
    have : ∀ e ∈ (tagged reg mid prem dies).foldl (combineStep inc) [],
        ((fun c => station_id_from_url c.station_url) ∘ Prod.snd) e = Prod.fst e :=
      fun e he => hkey e he
    rw [List.map_congr_left this]
    exact hnodup
  · intro sid
    rw [← hcover sid]
    constructor
    · rintro ⟨c, hc, rfl⟩
      obtain ⟨e, he, rfl⟩ := List.mem_map.mp hc
      exact ⟨e, he, (hkey e he).symm⟩
    · rintro ⟨e, he, rfl⟩
      exact ⟨e.2, List.mem_map_of_mem _ he, hkey e he⟩
  · intro c hc
    obtain ⟨e, he, rfl⟩ := List.mem_map.mp hc
    obtain ⟨r, hr, hname, hurl, haddr, hsid⟩ := hfirst e he
    rw [hkey e he]
    exact ⟨r, hr, hname, hurl, haddr⟩
  · intro c hc g
    obtain ⟨e, he, rfl⟩ := List.mem_map.mp hc
    rw [hkey e he]
    exact (hgrade e he g).1

/-- Concrete regular-grade observation used by witnesses. -/
def obsA : Obs :=
  { name := "Shell", station_url := "/station/5", price := some (349/100),
    address := "1 Main St", updated := "5 min ago" }

/-- Concrete midgrade observation with the same station id as `obsA` (its URL
differs only by a trailing slash). -/
def obsB : Obs :=
  { name := "Chevron", station_url := "/station/5/", price := some (379/100),
    address := "2 Main St", updated := "6 min ago" }

/-- The record `combine_by_station [obsA] [obsB] [] [] true` produces. -/
def combinedAB : Combined :=
  { name := "Shell", station_url := "/station/5", address := "1 Main St",
    regular := some (some (349/100)), midgrade := some (some (379/100)),
    regular_updated := some "5 min ago", midgrade_updated := some "6 min ago" }

/-- Witness for claim C2: at the concrete two-grade input `[obsA]`, `[obsB]`
the merged record keeps `obsA`'s identity fields and its midgrade price is the
one set by `obsB`. -/
theorem combine_by_station_spec_witness :
    gradePrice combinedAB Grade.midgrade =
      (((tagged [obsA] [obsB] [] []).filter
          (matchGradeKey Grade.midgrade (station_id_from_url combinedAB.station_url))).getLast?).map
        (fun x => x.2.price) :=
  (combine_by_station_spec [obsA] [obsB] [] [] true).2.2.2 combinedAB
    (by rw [show combine_by_station [obsA] [obsB] [] [] true = [combinedAB] from rfl]
        exact List.mem_singleton_self _) Grade.midgrade

/-- Claim C9: with the updates toggle off, every `<grade>_updated` field that
`combine_by_station` sets holds the empty string, regardless of the input
observations' updated strings; with the toggle on, each set updated field is
the updated string of the (last) observation that set it. -/
theorem combine_by_station_updated_toggle (reg mid prem dies : List Obs) :
    (∀ c ∈ combine_by_station reg mid prem dies false, ∀ g u,
        gradeUpdated c g = some u → u = "") ∧
    (∀ c ∈ combine_by_station reg mid prem dies true, ∀ g,
        gradeUpdated c g =
          (((tagged reg mid prem dies).filter
              (matchGradeKey g (station_id_from_url c.station_url))).getLast?).map
            (fun x => x.2.updated)) := by
  constructor
  · intro c hc g u hu
    obtain ⟨e, he, rfl⟩ := List.mem_map.mp hc
    have hrec := ((combine_by_station_inv reg mid prem dies false).2.2.2 e he g).2
    rw [hrec] at hu
    rcases hlast : ((tagged reg mid prem dies).filter (matchGradeKey g e.1)).getLast? with
      _ | y
    · rw [hlast] at hu; simp at hu
    · rw [hlast] at hu
      simp only [Option.map_some', Option.some.injEq] at hu
      simpa using hu.symm
  · intro c hc g
    obtain ⟨e, he, rfl⟩ := List.mem_map.mp hc
    have hrec := ((combine_by_station_inv reg mid prem dies true).2.2.2 e he g).2
    rw [combine_state_key reg mid prem dies true e he, hrec]
    simp

/-- Witness for claim C9: at the concrete input `[obsA]`, `[obsB]` with the
toggle on, the merged record's midgrade updated field is the string of the
observation that set it. -/
theorem combine_by_station_updated_toggle_witness :
    gradeUpdated combinedAB Grade.midgrade =
      (((tagged [obsA] [obsB] [] []).filter
          (matchGradeKey Grade.midgrade (station_id_from_url combinedAB.station_url))).getLast?).map
        (fun x => x.2.updated) :=
  (combine_by_station_updated_toggle [obsA] [obsB] [] []).2 combinedAB
    (by rw [show combine_by_station [obsA] [obsB] [] [] true = [combinedAB] from rfl]
        exact List.mem_singleton_self _) Grade.midgrade

/-! ### Result flattener (claim C5) -/

/-- A city's scrape result: a list of combined records, or the
`{"error": msg}` marker stored when the whole-city scrape raised. -/
inductive CityResult where
  | ok (stations : List Combined)
  | err (msg : String)
deriving DecidableEq, Repr

/-- One flattened storage row, the dict built by
`flatten_results_for_storage`. `none` models JSON null. -/
structure FlatRow where
  run_timestamp : String
  run_label : String
  city : String
  station_id : Option String
  station_name : Option String
  station_url : Option String
  address : Option String
  regular : Option ℚ
  regular_updated : Option String
  midgrade : Option ℚ
  midgrade_updated : Option String
  premium : Option ℚ
  premium_updated : Option String
  diesel : Option ℚ
  diesel_updated : Option String
  scrape_error : Option String
deriving DecidableEq, Repr

/-- Python `s or None` on a string: the empty string becomes null. -/
def orNoneStr (s : String) : Option String := if s = "" then none else some s

/-- Python `d.get(key, "") or None` for the `<grade>_updated` entries. -/
def updFlat (o : Option String) : Option String := orNoneStr (o.getD "")

/-- The error row built for a city whose result is an error marker. -/
def errorRowOf (ts lbl city msg : String) : FlatRow :=
  { run_timestamp := ts, run_label := lbl, city := city, station_id := none,
    station_name := some "ERROR", station_url := none, address := none,
    regular := none, regular_updated := none, midgrade := none,
    midgrade_updated := none, premium := none, premium_updated := none,
    diesel := none, diesel_updated := none, scrape_error := some msg }

/-- The data row built for one combined station record of a normal city. -/
def dataRowOf (ts lbl city : String) (s : Combined) : FlatRow :=
  { run_timestamp := ts, run_label := lbl, city := city,
    station_id := if s.station_url = "" then none
                  else some (station_id_from_url s.station_url),
    station_name := some s.name,
    station_url := orNoneStr s.station_url,
    address := orNoneStr s.address,
    regular := Option.join s.regular,
    regular_updated := updFlat s.regular_updated,
    midgrade := Option.join s.midgrade,
    midgrade_updated := updFlat s.midgrade_updated,
    premium := Option.join s.premium,
    premium_updated := updFlat s.premium_updated,
    diesel := Option.join s.diesel,
    diesel_updated := updFlat s.diesel_updated,
    scrape_error := none }

/-- Embeds `flatten_results_for_storage` from `scrape_gas.py` over the
insertion-ordered `all_results` dict. -/
def flatten_results_for_storage :
    List (String × CityResult) → String → String → List FlatRow
  | [], _, _ => []
  | (city, CityResult.err e) :: rest, ts, lbl =>
      errorRowOf ts lbl city e :: flatten_results_for_storage rest ts lbl
  | (city, CityResult.ok sts) :: rest, ts, lbl =>
      sts.map (dataRowOf ts lbl city) ++ flatten_results_for_storage rest ts lbl

theorem flatten_filter_errors (res : List (String × CityResult)) (ts lbl : String) :
    ((flatten_results_for_storage res ts lbl).filter
        (fun r => r.scrape_error.isSome)).map (fun r => (r.city, r.scrape_error)) =
      res.filterMap (fun ce => match ce.2 with
        | CityResult.err e => some (ce.1, some e)
        | CityResult.ok _ => none) := by
  induction res with
  | nil => rfl
  | cons head rest ih =>
    obtain ⟨city, cres⟩ := head
    cases cres with
    | err e =>
      simp only [flatten_results_for_storage, List.filter_cons, List.filterMap_cons]
      rw [if_pos (by simp [errorRowOf])]
      simp only [List.map_cons, ih, errorRowOf]
    | ok sts =>
      simp only [flatten_results_for_storage, List.filter_append, List.filterMap_cons]
      have hnil : (sts.map (dataRowOf ts lbl city)).filter
          (fun r => r.scrape_error.isSome) = [] := by
        rw [List.filter_eq_nil_iff]
        intro r hr
        obtain ⟨s, _, rfl⟩ := List.mem_map.mp hr
        simp [dataRowOf]
      rw [hnil, List.nil_append, ih]

theorem flatten_error_fields (res : List (String × CityResult)) (ts lbl : String) :
    ∀ r ∈ flatten_results_for_storage res ts lbl, r.scrape_error.isSome →
      r.station_id = none ∧ r.station_name = some "ERROR" ∧ r.station_url = none ∧
      r.address = none ∧ r.regular = none ∧ r.regular_updated = none ∧
      r.midgrade = none ∧ r.midgrade_updated = none ∧ r.premium = none ∧
      r.premium_updated = none ∧ r.diesel = none ∧ r.diesel_updated = none := by
  induction res with
  | nil => simp [flatten_results_for_storage]
  | cons head rest ih =>
    obtain ⟨city, cres⟩ := head
    cases cres with
    | err e =>
      intro r hr hsome
      rcases List.mem_cons.mp hr with rfl | hr
      · exact ⟨rfl, rfl, rfl, rfl, rfl, rfl, rfl, rfl, rfl, rfl, rfl, rfl⟩
      · exact ih r hr hsome
    | ok sts =>
      intro r hr hsome
      rcases List.mem_append.mp hr with hr | hr
      · obtain ⟨s, _, rfl⟩ := List.mem_map.mp hr
        simp [dataRowOf] at hsome
      · exact ih r hr hsome

theorem flatten_ok_rows (res : List (String × CityResult)) (ts lbl : String) :
    ∀ city sts, (city, CityResult.ok sts) ∈ res → ∀ s ∈ sts,
      dataRowOf ts lbl city s ∈ flatten_results_for_storage res ts lbl ∧
      (dataRowOf ts lbl city s).scrape_error = none := by
  induction res with
  | nil => simp
  | cons head rest ih =>
    obtain ⟨city0, cres0⟩ := head
    intro city sts hmem s hs
    rcases List.mem_cons.mp hmem with heq | hmem
    · obtain ⟨rfl, rfl⟩ : city0 = city ∧ cres0 = CityResult.ok sts := by
        have h1 := congrArg Prod.fst heq
        have h2 := congrArg Prod.snd heq
        exact ⟨h1.symm, h2.symm⟩
      refine ⟨?_, rfl⟩
      simp only [flatten_results_for_storage]
      exact List.mem_append_left _ (List.mem_map_of_mem _ hs)
    · have := ih city sts hmem s hs
      refine ⟨?_, this.2⟩
      cases cres0 with
      | err e =>
        simp only [flatten_results_for_storage]
        exact List.mem_cons_of_mem _ this.1
      | ok sts0 =>
        simp only [flatten_results_for_storage]
        exact List.mem_append_right _ this.1

/-- Counterexample to claim C5 as stated: for a single error city, the one
produced row has `scrape_error` set but its `station_name` is the literal
string `"ERROR"`, not null as the claim asserts. -/
theorem flatten_error_station_name_counterexample :
    flatten_results_for_storage [("LA", CityResult.err "boom")] "t" "l" =
      [errorRowOf "t" "l" "LA" "boom"] ∧
    (errorRowOf "t" "l" "LA" "boom").scrape_error = some "boom" ∧
    (errorRowOf "t" "l" "LA" "boom").station_name = some "ERROR" ∧
    (errorRowOf "t" "l" "LA" "boom").station_name ≠ none := by
  refine ⟨rfl, rfl, rfl, by simp [errorRowOf]⟩

/-- Claim C5 (amended): every error city contributes exactly one row, in
order, carrying its error string in `scrape_error`; in every such row
station_id, station_url, address, the four grade prices and the four updated
fields are null while `station_name` holds the literal `"ERROR"`; and every
row produced for a normal city's station has `scrape_error` null. -/
theorem flatten_results_for_storage_spec (res : List (String × CityResult))
    (ts lbl : String) :
    (((flatten_results_for_storage res ts lbl).filter
        (fun r => r.scrape_error.isSome)).map (fun r => (r.city, r.scrape_error)) =
      res.filterMap (fun ce => match ce.2 with
        | CityResult.err e => some (ce.1, some e)
        | CityResult.ok _ => none)) ∧
    (∀ r ∈ flatten_results_for_storage res ts lbl, r.scrape_error.isSome →
      r.station_id = none ∧ r.station_name = some "ERROR" ∧ r.station_url = none ∧
      r.address = none ∧ r.regular = none ∧ r.regular_updated = none ∧
      r.midgrade = none ∧ r.midgrade_updated = none ∧ r.premium = none ∧
      r.premium_updated = none ∧ r.diesel = none ∧ r.diesel_updated = none) ∧
    (∀ city sts, (city, CityResult.ok sts) ∈ res → ∀ s ∈ sts,
      dataRowOf ts lbl city s ∈ flatten_results_for_storage res ts lbl ∧
      (dataRowOf ts lbl city s).scrape_error = none) :=
  ⟨flatten_filter_errors res ts lbl, flatten_error_fields res ts lbl,
   flatten_ok_rows res ts lbl⟩

/-- Witness for claim C5 (amended) at a two-city input with one error city
and one normal city holding one station. -/
theorem flatten_results_for_storage_spec_witness :
    (errorRowOf "t" "l" "LA" "boom").station_id = none ∧
    (errorRowOf "t" "l" "LA" "boom").station_name = some "ERROR" ∧
    (errorRowOf "t" "l" "LA" "boom").station_url = none ∧
    (errorRowOf "t" "l" "LA" "boom").address = none ∧
    (errorRowOf "t" "l" "LA" "boom").regular = none ∧
    (errorRowOf "t" "l" "LA" "boom").regular_updated = none ∧
    (errorRowOf "t" "l" "LA" "boom").midgrade = none ∧
    (errorRowOf "t" "l" "LA" "boom").midgrade_updated = none ∧
    (errorRowOf "t" "l" "LA" "boom").premium = none ∧
    (errorRowOf "t" "l" "LA" "boom").premium_updated = none ∧
    (errorRowOf "t" "l" "LA" "boom").diesel = none ∧
    (errorRowOf "t" "l" "LA" "boom").diesel_updated = none :=
  (flatten_results_for_storage_spec
      [("LA", CityResult.err "boom"), ("OC", CityResult.ok [combinedAB])] "t" "l").2.1
    (errorRowOf "t" "l" "LA" "boom")
    (by rw [show flatten_results_for_storage
          [("LA", CityResult.err "boom"), ("OC", CityResult.ok [combinedAB])] "t" "l" =
          [errorRowOf "t" "l" "LA" "boom", dataRowOf "t" "l" "OC" combinedAB] from rfl]
        exact List.mem_cons_self _ _)
    (by rfl)

/-! ### Deduplication (claims C3, C4) -/

theorem dropWhile_dropWhile (p : Char → Bool) (l : List Char) :
    (l.dropWhile p).dropWhile p = l.dropWhile p := by
  rcases h : l.dropWhile p with _ | ⟨c, t⟩
  · rfl
  · have hc : p c = false := head?_dropWhile p l c (by rw [h]; rfl)
    rw [List.dropWhile_cons, hc]
    simp

theorem dropWhile_of_head_false (p : Char → Bool) (m : List Char)
    (h : ∀ c, m.head? = some c → p c = false) : m.dropWhile p = m := by
  rcases m with _ | ⟨c, t⟩
  · rfl
  · rw [List.dropWhile_cons, h c rfl]
    simp

theorem pystrip_no_lead (l : List Char) :
    (pystrip l).dropWhile isPySpace = pystrip l := by
  apply dropWhile_of_head_false
  intro c hc
  unfold pystrip at hc
  rw [List.head?_reverse] at hc
  have hne : (l.dropWhile isPySpace).reverse.dropWhile isPySpace ≠ [] := by
    intro hnil
    rw [hnil] at hc
    simp at hc
  rw [getLast?_dropWhile _ _ hne, List.getLast?_reverse] at hc
  exact head?_dropWhile _ _ _ hc

theorem pystrip_no_trail (l : List Char) :
    (pystrip l).reverse.dropWhile isPySpace = (pystrip l).reverse := by
  unfold pystrip
  rw [List.reverse_reverse]
  exact dropWhile_dropWhile _ _

theorem pystrip_idem (l : List Char) : pystrip (pystrip l) = pystrip l := by
  conv_lhs => rw [pystrip, pystrip_no_lead, pystrip_no_trail, List.reverse_reverse]

theorem pystripS_idem (s : String) : pystripS (pystripS s) = pystripS s := by
  unfold pystripS
  exact congrArg String.mk (pystrip_idem s.data)

/-- Blank-key test of the dedupe pass: the trimmed station name or the trimmed
address is empty, so the row is passed through unconditionally. -/
def rowBlank (r : FlatRow) : Prop :=
  pystripS (r.station_name.getD "") = "" ∨ pystripS (r.address.getD "") = ""

instance rowBlankDec (r : FlatRow) : Decidable (rowBlank r) :=
  inferInstanceAs (Decidable (pystripS (r.station_name.getD "") = "" ∨
    pystripS (r.address.getD "") = ""))

/-- The case-insensitive (trimmed name, trimmed address) dedupe key of a row. -/
def rowKey (r : FlatRow) : String × String :=
  (lowerS (pystripS (r.station_name.getD "")), lowerS (pystripS (r.address.getD "")))

/-- The in-place trimming the dedupe pass applies to a retained row. -/
def trimRow (r : FlatRow) : FlatRow :=
  { r with station_name := some (pystripS (r.station_name.getD "")),
           address := some (pystripS (r.address.getD "")) }

/-- The loop of `dedupe_rows_by_station_and_address`, with the `seen` set
explicit. -/
def dedupe_go (seen : List (String × String)) : List FlatRow → List FlatRow
  | [] => []
  | row :: rest =>
    let station_name := pystripS (row.station_name.getD "")
    let address := pystripS (row.address.getD "")
    if station_name = "" ∨ address = "" then
      row :: dedupe_go seen rest
    else if (lowerS station_name, lowerS address) ∈ seen then
      dedupe_go seen rest
    else
      { row with station_name := some station_name, address := some address } ::
        dedupe_go ((lowerS station_name, lowerS address) :: seen) rest

/-- Embeds `dedupe_rows_by_station_and_address` from `scrape_gas.py`. -/
def dedupe_rows_by_station_and_address (rows : List FlatRow) : List FlatRow :=
  dedupe_go [] rows

theorem dedupe_go_cons (seen : List (String × String)) (row : FlatRow)
    (rest : List FlatRow) :
    dedupe_go seen (row :: rest) =
      if rowBlank row then row :: dedupe_go seen rest
      else if rowKey row ∈ seen then dedupe_go seen rest
      else trimRow row :: dedupe_go (rowKey row :: seen) rest := rfl

theorem rowKey_trimRow (r : FlatRow) : rowKey (trimRow r) = rowKey r := by
  simp [rowKey, trimRow, pystripS_idem]

theorem rowBlank_trimRow (r : FlatRow) : rowBlank (trimRow r) ↔ rowBlank r := by
  simp [rowBlank, trimRow, pystripS_idem]

theorem trimRow_trimRow (r : FlatRow) : trimRow (trimRow r) = trimRow r := by
  cases r
  simp [trimRow, pystripS_idem]

theorem dedupe_go_filter_blank (l : List FlatRow) : ∀ seen,
    (dedupe_go seen l).filter (fun r => decide (rowBlank r)) =
      l.filter (fun r => decide (rowBlank r)) := by
  induction l with
  | nil => intro seen; rfl
  | cons row rest ih =>
    intro seen
    rw [dedupe_go_cons]
    by_cases hb : rowBlank row
    · rw [if_pos hb, List.filter_cons, List.filter_cons]
      simp only [decide_eq_true_eq] at *
      rw [if_pos hb, if_pos hb, ih seen]
    · rw [if_neg hb]
      by_cases hk : rowKey row ∈ seen
      · rw [if_pos hk, ih seen, List.filter_cons]
        rw [if_neg (by simpa using hb)]
      · rw [if_neg hk]
        have hbt : ¬ rowBlank (trimRow row) := fun hh => hb ((rowBlank_trimRow row).mp hh)
        rw [List.filter_cons, List.filter_cons, if_neg (by simpa using hbt),
          if_neg (by simpa using hb)]
        exact ih _

theorem dedupe_go_keys (l : List FlatRow) : ∀ seen,
    (∀ r ∈ dedupe_go seen l, ¬ rowBlank r → rowKey r ∉ seen) ∧
    (((dedupe_go seen l).filter (fun r => !decide (rowBlank r))).map rowKey).Nodup := by
  induction l with
  | nil =>
    intro seen
    exact ⟨by simp [dedupe_go], by simp [dedupe_go]⟩
  | cons row rest ih =>
    intro seen
    rw [dedupe_go_cons]
    by_cases hb : rowBlank row
    · rw [if_pos hb]
      obtain ⟨ih1, ih2⟩ := ih seen
      constructor
      · intro r hr hnb
        rcases List.mem_cons.mp hr with rfl | hr
        · exact absurd hb hnb
        · exact ih1 r hr hnb
      · rw [List.filter_cons, if_neg (by simpa using hb)]
        exact ih2
    · rw [if_neg hb]
      by_cases hk : rowKey row ∈ seen
      · rw [if_pos hk]
        exact ih seen
      · rw [if_neg hk]
        obtain ⟨ih1, ih2⟩ := ih (rowKey row :: seen)
        constructor
        · intro r hr hnb
          rcases List.mem_cons.mp hr with rfl | hr
          · rw [rowKey_trimRow]
            exact hk
          · intro hin
            exact ih1 r hr hnb (List.mem_cons_of_mem _ hin)
        · have hbt : ¬ rowBlank (trimRow row) :=
            fun hh => hb ((rowBlank_trimRow row).mp hh)
          rw [List.filter_cons, if_pos (by simpa using hbt)]
          rw [List.map_cons, List.nodup_cons]
          refine ⟨?_, ih2⟩
          intro hmem
          obtain ⟨r, hrf, hkeq⟩ := List.mem_map.mp hmem
          obtain ⟨hrmem, hrnb⟩ := List.mem_filter.mp hrf
          have := ih1 r hrmem (by simpa using hrnb)
          apply this
          rw [hkeq, rowKey_trimRow]
          exact List.mem_cons_self _ _

theorem dedupe_go_origin (l : List FlatRow) : ∀ seen,
    ∀ r ∈ dedupe_go seen l, ¬ rowBlank r →
      ∃ row₀, l.find? (fun x => !decide (rowBlank x) &&
          decide (rowKey x = rowKey r)) = some row₀ ∧ r = trimRow row₀ := by
  induction l with
  | nil =>
    intro seen r hr
    simp [dedupe_go] at hr
  | cons row rest ih =>
    intro seen r hr hnb
    rw [dedupe_go_cons] at hr
    by_cases hb : rowBlank row
    · rw [if_pos hb] at hr
      rcases List.mem_cons.mp hr with rfl | hr
      · exact absurd hb hnb
      · obtain ⟨row₀, hfind, heq⟩ := ih seen r hr hnb
        refine ⟨row₀, ?_, heq⟩
        rw [List.find?_cons_of_neg _ (by simp [hb]), hfind]
    · rw [if_neg hb] at hr
      by_cases hk : rowKey row ∈ seen
      · rw [if_pos hk] at hr
        obtain ⟨row₀, hfind, heq⟩ := ih seen r hr hnb
        have hne : rowKey r ≠ rowKey row := by
          intro hcontra
          exact (dedupe_go_keys rest seen).1 r hr hnb (hcontra ▸ hk)
        refine ⟨row₀, ?_, heq⟩
        rw [List.find?_cons_of_neg _ (by simp [Ne.symm hne]), hfind]
      · rw [if_neg hk] at hr
        rcases List.mem_cons.mp hr with rfl | hr
        · refine ⟨row, ?_, rfl⟩
          rw [List.find?_cons_of_pos _ (by simp [hb, rowKey_trimRow])]
        · obtain ⟨row₀, hfind, heq⟩ := ih (rowKey row :: seen) r hr hnb
          have hkeys := (dedupe_go_keys rest (rowKey row :: seen)).1 r hr hnb
          have hne : rowKey r ≠ rowKey row := fun hc =>
            hkeys (by rw [hc]; exact List.mem_cons_self _ _)
          refine ⟨row₀, ?_, heq⟩
          rw [List.find?_cons_of_neg _ (by simp [Ne.symm hne]), hfind]

theorem dedupe_go_coverage (l : List FlatRow) : ∀ seen, ∀ row ∈ l, ¬ rowBlank row →
    rowKey row ∈ seen ∨
      ∃ r ∈ dedupe_go seen l, ¬ rowBlank r ∧ rowKey r = rowKey row := by
  induction l with
  | nil => simp
  | cons h0 rest ih =>
    intro seen row hrow hnb
    rw [dedupe_go_cons]
    rcases List.mem_cons.mp hrow with rfl | hrow
    · rw [if_neg hnb]
      by_cases hk : rowKey row ∈ seen
      · exact Or.inl hk
      · rw [if_neg hk]
        right
        exact ⟨trimRow row, List.mem_cons_self _ _,
          fun hh => hnb ((rowBlank_trimRow row).mp hh), rowKey_trimRow row⟩
    · by_cases hb : rowBlank h0
      · rw [if_pos hb]
        rcases ih seen row hrow hnb with h | ⟨r, hr, hnb', hk⟩
        · exact Or.inl h
        · exact Or.inr ⟨r, List.mem_cons_of_mem _ hr, hnb', hk⟩
      · rw [if_neg hb]
        by_cases hk : rowKey h0 ∈ seen
        · rw [if_pos hk]
          exact ih seen row hrow hnb
        · rw [if_neg hk]
          rcases ih (rowKey h0 :: seen) row hrow hnb with h | ⟨r, hr, hnb', hkk⟩
          · rcases List.mem_cons.mp h with heq | hin
            · right
              exact ⟨trimRow h0, List.mem_cons_self _ _,
                fun hh => hb ((rowBlank_trimRow h0).mp hh),
                by rw [rowKey_trimRow, ← heq]⟩
            · exact Or.inl hin
          · exact Or.inr ⟨r, List.mem_cons_of_mem _ hr, hnb', hkk⟩

/-- Claim C3: the dedupe pass passes through unconditionally every row whose
trimmed station_name or trimmed address is empty (the blank sublist is
preserved exactly); among the remaining rows each case-insensitive
(trimmed name, trimmed address) key appears at most once; every retained
non-blank row is the trimmed copy of the first input row carrying its key;
and every non-blank input key is represented in the output. -/
theorem dedupe_rows_by_station_and_address_spec (rows : List FlatRow) :
    ((dedupe_rows_by_station_and_address rows).filter (fun r => decide (rowBlank r)) =
      rows.filter (fun r => decide (rowBlank r))) ∧
    (((dedupe_rows_by_station_and_address rows).filter
        (fun r => !decide (rowBlank r))).map rowKey).Nodup ∧
    (∀ r ∈ dedupe_rows_by_station_and_address rows, ¬ rowBlank r →
      ∃ row₀, rows.find? (fun x => !decide (rowBlank x) &&
          decide (rowKey x = rowKey r)) = some row₀ ∧ r = trimRow row₀) ∧
    (∀ row ∈ rows, ¬ rowBlank row →
      ∃ r ∈ dedupe_rows_by_station_and_address rows, ¬ rowBlank r ∧
        rowKey r = rowKey row) := by
  unfold dedupe_rows_by_station_and_address
  refine ⟨dedupe_go_filter_blank rows [], (dedupe_go_keys rows []).2,
    dedupe_go_origin rows [], ?_⟩
  intro row hrow hnb
  rcases dedupe_go_coverage rows [] row hrow hnb with h | h
  · simp at h
  · exact h

theorem dedupe_go_id (l : List FlatRow) : ∀ seen,
    (∀ r ∈ l, ¬ rowBlank r → rowKey r ∉ seen ∧ trimRow r = r) →
    (((l.filter (fun r => !decide (rowBlank r))).map rowKey).Nodup) →
    dedupe_go seen l = l := by
  induction l with
  | nil => intro seen _ _; rfl
  | cons row rest ih =>
    intro seen hcond hnodup
    rw [dedupe_go_cons]
    by_cases hb : rowBlank row
    · rw [if_pos hb]
      congr 1
      apply ih seen (fun r hr hnb => hcond r (List.mem_cons_of_mem _ hr) hnb)
      rw [List.filter_cons, if_neg (by simpa using hb)] at hnodup
      exact hnodup
    · rw [if_neg hb]
      obtain ⟨hkni, htrim⟩ := hcond row (List.mem_cons_self _ _) hb
      rw [if_neg hkni, htrim]
      congr 1
      rw [List.filter_cons, if_pos (by simpa using hb),
        List.map_cons, List.nodup_cons] at hnodup
      apply ih (rowKey row :: seen) ?_ hnodup.2
      intro r hr hnb
      obtain ⟨h1, h2⟩ := hcond r (List.mem_cons_of_mem _ hr) hnb
      refine ⟨?_, h2⟩
      intro hin
      rcases List.mem_cons.mp hin with heq | hin
      · apply hnodup.1
        rw [← heq]
        exact List.mem_map_of_mem _ (List.mem_filter.mpr ⟨hr, by simpa using hnb⟩)
      · exact h1 hin

/-- Claim C4: the dedupe pass is idempotent — applying it to its own output
returns that output unchanged. -/
theorem dedupe_rows_by_station_and_address_idem (rows : List FlatRow) :
    dedupe_rows_by_station_and_address (dedupe_rows_by_station_and_address rows) =
      dedupe_rows_by_station_and_address rows := by
  unfold dedupe_rows_by_station_and_address
  apply dedupe_go_id
  · intro r hr hnb
    refine ⟨by simp, ?_⟩
    obtain ⟨row₀, _, heq⟩ := dedupe_go_origin rows [] r hr hnb
    rw [heq, trimRow_trimRow]
  · exact (dedupe_go_keys rows []).2

/-- Concrete non-blank row used by the C3 witness. -/
def rowP : FlatRow :=
  { run_timestamp := "t", run_label := "l", city := "OC", station_id := none,
    station_name := some "Shell", station_url := none, address := some "1 Main St",
    regular := none, regular_updated := none, midgrade := none,
    midgrade_updated := none, premium := none, premium_updated := none,
    diesel := none, diesel_updated := none, scrape_error := none }

/-- A case-differing duplicate of `rowP` (same key, different case). -/
def rowQ : FlatRow :=
  { rowP with city := "OC2", station_name := some "SHELL",
              address := some "1 MAIN ST" }

/-- Witness for claim C3: on the concrete pair `rowP`, `rowQ` sharing a
case-insensitive key, the retained row is the trimmed first occurrence. -/
theorem dedupe_rows_by_station_and_address_spec_witness :
    ∃ row₀, [rowP, rowQ].find? (fun x => !decide (rowBlank x) &&
        decide (rowKey x = rowKey (trimRow rowP))) = some row₀ ∧
      trimRow rowP = trimRow row₀ :=
  (dedupe_rows_by_station_and_address_spec [rowP, rowQ]).2.2.1 (trimRow rowP)
    (by rw [show dedupe_rows_by_station_and_address [rowP, rowQ] =
          [trimRow rowP] from rfl]
        exact List.mem_singleton_self _)
    (by decide)

/-! ### Single-grade page scraper (claims C6, C8) -/

/-- A rendered station link, the unit `scrape_city_page_current_dom` iterates:
`text` is `a.text`, `href` the link target (the empty string models a falsy
href), and `card` the `innerText` of the card `find_station_card` returns
(`none` when no card is found, in which case the link is skipped). -/
structure Link where
  text : String
  href : String
  card : Option String
deriving DecidableEq, Repr

/-- Word characters for the regex `\b` boundary (ASCII fragment of `\w`). -/
def isWordChar (c : Char) : Bool := c.isAlphanum || c = '_'

/-- Is the previous character compatible with a word boundary? -/
def prevOk : Option Char → Bool
  | none => true
  | some c => !isWordChar c

/-- Scan for the word `ago` with `\b` boundaries, tracking the previous
character. -/
def agoSearch : Option Char → List Char → Bool
  | prev, 'a' :: 'g' :: 'o' :: rest =>
      (prevOk prev && (match rest with
        | [] => true
        | c :: _ => !isWordChar c)) ||
      agoSearch (some 'a') ('g' :: 'o' :: rest)
  | _, [] => false
  | _, c :: rest => agoSearch (some c) rest

/-- Embeds `re.search(r"\bago\b", line, re.IGNORECASE) is not None`. -/
def hasWordAgo (l : List Char) : Bool := agoSearch none (lowerStr l)

/-- Numeric value of a digit run. -/
def natOfDigits (ds : List Char) : ℕ :=
  ds.foldl (fun n c => 10 * n + (c.toNat - '0'.toNat)) 0

/-- Match of the price regex `\$\s*(\d+\.\d{2})` anchored at the start: a
dollar sign, optional whitespace, a maximal digit run, a dot and exactly two
digits; the captured group as a rational. -/
def matchPriceAt : List Char → Option ℚ
  | '$' :: rest =>
    let rest1 := rest.dropWhile isPySpace
    let ds := rest1.takeWhile Char.isDigit
    if ds.isEmpty then none
    else
      match rest1.dropWhile Char.isDigit with
      | '.' :: d1 :: d2 :: _ =>
        if d1.isDigit && d2.isDigit then
          some ((natOfDigits (ds ++ [d1, d2]) : ℚ) / 100)
        else none
      | _ => none
  | _ => none

/-- Embeds `price_re.search(text)`: the first position where the price regex
matches. -/
def priceSearch : List Char → Option ℚ
  | [] => none
  | c :: t =>
    match matchPriceAt (c :: t) with
    | some q => some q
    | none => priceSearch t

/-- Python `str.splitlines` (common `\n`, `\r`, `\r\n` terminators; no empty
trailing line). -/
def splitLinesGo (cur : List Char) : List Char → List (List Char)
  | [] => if cur.isEmpty then [] else [cur.reverse]
  | '\r' :: '\n' :: rest => cur.reverse :: splitLinesGo [] rest
  | '\n' :: rest => cur.reverse :: splitLinesGo [] rest
  | '\r' :: rest => cur.reverse :: splitLinesGo [] rest
  | c :: rest => splitLinesGo (c :: cur) rest

/-- The per-card extraction of the scraper loop body: stripped card text,
price regex search, nonempty stripped lines, first address-like line, first
"ago" line; `none` when no price is found (the station is skipped). -/
def cardObs (name href cardText : String) : Option Obs :=
  let text := pystripS cardText
  let lines := ((splitLinesGo [] text.data).map pystrip).filter (fun ln => !ln.isEmpty)
  let address : String := ⟨((lines.find? (fun ln => looks_like_address ⟨ln⟩)).getD [])⟩
  let updated : String := ⟨((lines.find? (fun ln => hasWordAgo ln)).getD [])⟩
  (priceSearch text.data).map (fun p =>
    { name := name, station_url := href, price := some p,
      address := address, updated := updated })

/-- The link loop of `scrape_city_page_current_dom`, with the `seen` set and
result accumulator explicit. The bound is checked after a possible append,
mirroring the `if len(results) >= limit: break` placement. -/
def scrapeGo (limit : ℕ) (seen : List String) (acc : List Obs) :
    List Link → List Obs
  | [] => acc
  | a :: rest =>
    if pystripS a.text = "" ∨ a.href = "" then scrapeGo limit seen acc rest
    else if a.href ∈ seen then scrapeGo limit seen acc rest
    else
      match a.card with
      | none => scrapeGo limit (a.href :: seen) acc rest
      | some cardText =>
        let acc2 := match cardObs (pystripS a.text) a.href cardText with
          | some o => acc ++ [o]
          | none => acc
        if limit ≤ acc2.length then acc2
        else scrapeGo limit (a.href :: seen) acc2 rest

/-- Embeds `scrape_city_page_current_dom`: `none` models the bounded wait for
station links timing out (the `except` branch returning `[]`); `some links`
the rendered link list in DOM order. -/
def scrape_city_page_current_dom (page : Option (List Link)) (limit : ℕ) :
    List Obs :=
  match page with
  | none => []
  | some links => scrapeGo limit [] [] links

/-- Is a link kept by the empty-name/empty-href check? -/
def linkValid (a : Link) : Bool :=
  !decide (pystripS a.text = "") && !decide (a.href = "")

/-- First-occurrence deduplication of links by href. -/
def dedupHrefGo (seen : List String) : List Link → List Link
  | [] => []
  | a :: rest =>
    if a.href ∈ seen then dedupHrefGo seen rest
    else a :: dedupHrefGo (a.href :: seen) rest

/-- First-occurrence deduplication of a link list by href. -/
def dedupByHref (links : List Link) : List Link := dedupHrefGo [] links

theorem scrapeGo_cons (limit : ℕ) (seen : List String) (acc : List Obs)
    (a : Link) (rest : List Link) :
    scrapeGo limit seen acc (a :: rest) =
      if pystripS a.text = "" ∨ a.href = "" then scrapeGo limit seen acc rest
      else if a.href ∈ seen then scrapeGo limit seen acc rest
      else
        match a.card with
        | none => scrapeGo limit (a.href :: seen) acc rest
        | some cardText =>
          let acc2 := match cardObs (pystripS a.text) a.href cardText with
            | some o => acc ++ [o]
            | none => acc
          if limit ≤ acc2.length then acc2
          else scrapeGo limit (a.href :: seen) acc2 rest := rfl

theorem cardObs_price (name href cardText : String) (o : Obs)
    (h : cardObs name href cardText = some o) : o.price.isSome := by
  simp only [cardObs, Option.map_eq_some'] at h
  obtain ⟨p, _, rfl⟩ := h
  rfl

theorem scrapeGo_length (limit : ℕ) (l : List Link) :
    ∀ (seen : List String) (acc : List Obs),
      acc.length < limit → (scrapeGo limit seen acc l).length ≤ limit := by
  induction l with
  | nil =>
    intro seen acc h
    exact Nat.le_of_lt h
  | cons a rest ih =>
    intro seen acc h
    rw [scrapeGo_cons]
    by_cases h1 : pystripS a.text = "" ∨ a.href = ""
    · rw [if_pos h1]
      exact ih seen acc h
    · rw [if_neg h1]
      by_cases h2 : a.href ∈ seen
      · rw [if_pos h2]
        exact ih seen acc h
      · rw [if_neg h2]
        rcases hcard : a.card with _ | cardText
        · exact ih _ acc h
        · simp only []
          rcases hobs : cardObs (pystripS a.text) a.href cardText with _ | o
          · simp only [hobs]
            rw [if_neg (by omega)]
            exact ih _ acc h
          · simp only [hobs]
            by_cases h3 : limit ≤ (acc ++ [o]).length
            · rw [if_pos h3]
              simp only [List.length_append, List.length_singleton]
              omega
            · rw [if_neg h3]
              apply ih
              simp only [List.length_append, List.length_singleton]
              simp only [List.length_append, List.length_singleton] at h3
              omega

theorem scrapeGo_price (limit : ℕ) (l : List Link) :
    ∀ (seen : List String) (acc : List Obs),
      (∀ o ∈ acc, o.price.isSome) →
      ∀ o ∈ scrapeGo limit seen acc l, o.price.isSome := by
  induction l with
  | nil =>
    intro seen acc hacc
    exact hacc
  | cons a rest ih =>
    intro seen acc hacc
    rw [scrapeGo_cons]
    by_cases h1 : pystripS a.text = "" ∨ a.href = ""
    · rw [if_pos h1]
      exact ih seen acc hacc
    · rw [if_neg h1]
      by_cases h2 : a.href ∈ seen
      · rw [if_pos h2]
        exact ih seen acc hacc
      · rw [if_neg h2]
        rcases hcard : a.card with _ | cardText
        · exact ih _ acc hacc
        · simp only []
          rcases hobs : cardObs (pystripS a.text) a.href cardText with _ | o
          · simp only [hobs]
            split
            · exact hacc
            · exact ih _ acc hacc
          · simp only [hobs]
            have hacc2 : ∀ o' ∈ acc ++ [o], o'.price.isSome := by
              intro o' ho'
              rcases List.mem_append.mp ho' with ho' | ho'
              · exact hacc o' ho'
              · rw [List.mem_singleton.mp ho']
                exact cardObs_price _ _ _ _ hobs
            split
            · exact hacc2
            · exact ih _ _ hacc2

theorem scrapeGo_filter (limit : ℕ) (l : List Link) :
    ∀ (seen : List String) (acc : List Obs),
      scrapeGo limit seen acc (l.filter linkValid) = scrapeGo limit seen acc l := by
  induction l with
  | nil => intro seen acc; rfl
  | cons a rest ih =>
    intro seen acc
    by_cases hv : linkValid a = true
    · have hnb : ¬ (pystripS a.text = "" ∨ a.href = "") := by
        simp only [linkValid, Bool.and_eq_true, Bool.not_eq_true',
          decide_eq_false_iff_not] at hv
        rintro (h | h)
        · exact hv.1 h
        · exact hv.2 h
      rw [List.filter_cons, if_pos hv, scrapeGo_cons, scrapeGo_cons,
        if_neg hnb, if_neg hnb]
      by_cases h2 : a.href ∈ seen
      · rw [if_pos h2, if_pos h2]
        exact ih seen acc
      · rw [if_neg h2, if_neg h2]
        rcases hcard : a.card with _ | cardText
        · exact ih _ acc
        · simp only []
          rcases hobs : cardObs (pystripS a.text) a.href cardText with _ | o <;>
            simp only [hobs] <;> split <;> first | rfl | exact ih _ _
    · have hb : pystripS a.text = "" ∨ a.href = "" := by
        simp only [linkValid, Bool.and_eq_true, Bool.not_eq_true',
          decide_eq_false_iff_not] at hv
        by_cases hs : pystripS a.text = ""
        · exact Or.inl hs
        · right
          by_contra hh
          exact hv ⟨hs, hh⟩
      rw [List.filter_cons, if_neg hv, scrapeGo_cons, if_pos hb]
      exact ih seen acc

theorem scrapeGo_dedup (limit : ℕ) (l : List Link) :
    ∀ (seen : List String) (acc : List Obs),
      (∀ a ∈ l, linkValid a = true) →
      scrapeGo limit seen acc (dedupHrefGo seen l) = scrapeGo limit seen acc l := by
  induction l with
  | nil => intro seen acc _; rfl
  | cons a rest ih =>
    intro seen acc hval
    have hnb : ¬ (pystripS a.text = "" ∨ a.href = "") := by
      have hv := hval a (List.mem_cons_self _ _)
      simp only [linkValid, Bool.and_eq_true, Bool.not_eq_true',
        decide_eq_false_iff_not] at hv
      rintro (h | h)
      · exact hv.1 h
      · exact hv.2 h
    have hvalrest : ∀ x ∈ rest, linkValid x = true :=
      fun x hx => hval x (List.mem_cons_of_mem _ hx)
    unfold dedupHrefGo
    by_cases h2 : a.href ∈ seen
    · rw [if_pos h2, scrapeGo_cons, if_neg hnb, if_pos h2]
      exact ih seen acc hvalrest
    · rw [if_neg h2, scrapeGo_cons, scrapeGo_cons, if_neg hnb, if_neg hnb,
        if_neg h2, if_neg h2]
      rcases hcard : a.card with _ | cardText
      · exact ih _ acc hvalrest
      · simp only []
        rcases hobs : cardObs (pystripS a.text) a.href cardText with _ | o <;>
          simp only [hobs] <;> split <;> first | rfl | exact ih _ _ hvalrest

/-- Concrete link used by C6's counterexample and witness. -/
def cLink : Link := { text := "Shell", href := "/station/1", card := some "$3.49" }

/-- Counterexample to claim C6 as stated: with `limit = 0` and one priced
station link, the scraper still returns one observation (the bound is checked
only after the append), so the output is not bounded by the limit. -/
theorem scrape_limit_zero_counterexample :
    ¬ ((scrape_city_page_current_dom (some [cLink]) 0).length ≤ 0) := by
  decide

/-- Claim C6 (amended): for every rendered link list, when `limit ≥ 1` the
scraper returns at most `limit` observations (for `limit = 0` one observation
may still be emitted, since the bound is checked only after an append); every
returned observation has a non-null price; links with empty trimmed name or
empty href contribute nothing (filtering them away leaves the output
unchanged); and among valid links sharing the same URL only the first
occurrence in DOM order is processed (first-occurrence dedup by href leaves
the output unchanged). -/
theorem scrape_city_page_current_dom_spec (links : List Link) (limit : ℕ) :
    (1 ≤ limit → (scrape_city_page_current_dom (some links) limit).length ≤ limit) ∧
    (∀ o ∈ scrape_city_page_current_dom (some links) limit, o.price.isSome) ∧
    (scrape_city_page_current_dom (some (links.filter linkValid)) limit =
      scrape_city_page_current_dom (some links) limit) ∧
    ((∀ a ∈ links, linkValid a = true) →
      scrape_city_page_current_dom (some (dedupByHref links)) limit =
        scrape_city_page_current_dom (some links) limit) := by
  refine ⟨?_, ?_, ?_, ?_⟩
  · intro hlim
    exact scrapeGo_length limit links [] [] (by simpa using hlim)
  · exact scrapeGo_price limit links [] [] (by simp)
  · exact scrapeGo_filter limit links [] []
  · intro hval
    exact scrapeGo_dedup limit links [] [] hval

/-- Witness for claim C6 (amended) at the concrete one-link page and
`limit = 5`. -/
theorem scrape_city_page_current_dom_spec_witness :
    ((scrape_city_page_current_dom (some [cLink]) 5).length ≤ 5) ∧
    (scrape_city_page_current_dom (some (dedupByHref [cLink])) 5 =
      scrape_city_page_current_dom (some [cLink]) 5) :=
  ⟨(scrape_city_page_current_dom_spec [cLink] 5).1 (by decide),
   (scrape_city_page_current_dom_spec [cLink] 5).2.2.2 (by decide)⟩

/-! ### Multi-grade city scraper (claim C8) -/

/-- Abstract rendering of one city page session: whether the initial wait for
station links succeeded, the link list under the default (regular) grade
(`none` models the per-page wait timeout), and for each switched grade either
the raised grade-switch timeout (`Except.error`) or the page state after the
switch. -/
structure CityPage where
  hasStations : Bool
  regular : Option (List Link)
  midgrade : Except String (Option (List Link))
  premium : Except String (Option (List Link))
  diesel : Except String (Option (List Link))
deriving Repr

/-- One enabled grade's scrape: propagate a raised switch failure, else scrape
the page state. -/
def gradeData (en : Bool) (src : Except String (Option (List Link)))
    (limit : ℕ) : Except String (List Obs) :=
  if en then src.map (fun o => scrape_city_page_current_dom o limit)
  else Except.ok []

/-- Embeds `scrape_all_fueltypes`: if no station link ever appears, return the
empty list immediately; otherwise scrape each enabled grade in order
(propagating a grade-switch failure) and combine per station. -/
def scrape_all_fueltypes (p : CityPage) (limit : ℕ)
    (enR enM enP enD inc : Bool) : Except String (List Combined) :=
  if p.hasStations = false then Except.ok []
  else
    match gradeData enM p.midgrade limit with
    | Except.error e => Except.error e
    | Except.ok mid =>
      match gradeData enP p.premium limit with
      | Except.error e => Except.error e
      | Except.ok prem =>
        match gradeData enD p.diesel limit with
        | Except.error e => Except.error e
        | Except.ok dies =>
          Except.ok (combine_by_station
            (if enR then scrape_city_page_current_dom p.regular limit else [])
            mid prem dies inc)

/-- Claim C8: when the wait for station links on a city page times out, the
city scrape returns the empty list (`Except.ok []`) rather than raising or
producing an error value; likewise the per-page scraper's own bounded wait
timing out yields the empty list. -/
theorem scrape_timeout_empty (p : CityPage) (limit : ℕ)
    (enR enM enP enD inc : Bool) :
    (p.hasStations = false →
      scrape_all_fueltypes p limit enR enM enP enD inc = Except.ok []) ∧
    scrape_city_page_current_dom none limit = [] := by
  constructor
  · intro h
    simp [scrape_all_fueltypes, h]
  · rfl

/-- Witness for claim C8 at a concrete page whose station wait timed out. -/
theorem scrape_timeout_empty_witness :
    scrape_all_fueltypes
        { hasStations := false, regular := none, midgrade := Except.ok none,
          premium := Except.ok none, diesel := Except.ok none } 30
        true true true true false = Except.ok [] :=
  (scrape_timeout_empty
      { hasStations := false, regular := none, midgrade := Except.ok none,
        premium := Except.ok none, diesel := Except.ok none } 30
      true true true true false).1 rfl

/-! ### CSV writer (claim C10) -/

/-- One CSV cell as handed to `csv.writer`: a string or a float value.
`csv.writer` renders Python `None` as the empty string, so a stored null
price becomes `Cell.str ""`. -/
inductive Cell where
  | str (s : String)
  | num (q : ℚ)
deriving DecidableEq, Repr

/-- Cell for `s.get(grade, "")`: absent key or stored null render empty. -/
def priceCell (o : Option (Option ℚ)) : Cell :=
  match o with
  | some (some p) => Cell.num p
  | _ => Cell.str ""

/-- Cell for `s.get(grade + "_updated", "")`. -/
def updCell (o : Option String) : Cell := Cell.str (o.getD "")

/-- The fixed header row of `write_csv`. -/
def csvHeader : List Cell :=
  [Cell.str "Run Timestamp", Cell.str "City", Cell.str "Station",
   Cell.str "Address", Cell.str "Regular", Cell.str "Regular Updated",
   Cell.str "Midgrade", Cell.str "Midgrade Updated", Cell.str "Premium",
   Cell.str "Premium Updated", Cell.str "Diesel", Cell.str "Diesel Updated"]

/-- The cells written for one station record (name and address already
stripped by the caller). -/
def stationRowCells (ts city n a : String) (s : Combined) : List Cell :=
  [Cell.str ts, Cell.str city, Cell.str n, Cell.str a,
   priceCell s.regular, updCell s.regular_updated,
   priceCell s.midgrade, updCell s.midgrade_updated,
   priceCell s.premium, updCell s.premium_updated,
   priceCell s.diesel, updCell s.diesel_updated]

/-- The inner station loop of `write_csv` for one city, threading the
cross-city (station, address) dedupe set; returns the updated set and the
rows written. -/
def csvCityGo (ts city : String) (seen : List (String × String)) :
    List Combined → (List (String × String)) × List (List Cell)
  | [] => (seen, [])
  | s :: rest =>
    let station_name := pystripS s.name
    let address := pystripS s.address
    if station_name = "" ∨ address = "" then
      let next := csvCityGo ts city seen rest
      (next.1, stationRowCells ts city station_name address s :: next.2)
    else if (lowerS station_name, lowerS address) ∈ seen then
      csvCityGo ts city seen rest
    else
      let next :=
        csvCityGo ts city ((lowerS station_name, lowerS address) :: seen) rest
      (next.1, stationRowCells ts city station_name address s :: next.2)

/-- The outer city loop of `write_csv`: an error city writes a single literal
row (bypassing the dedupe set); a normal city writes its station rows. -/
def csvGo (ts : String) (seen : List (String × String)) :
    List (String × CityResult) → List (List Cell)
  | [] => []
  | (city, CityResult.err e) :: rest =>
      [Cell.str ts, Cell.str city, Cell.str "ERROR", Cell.str e, Cell.str "",
       Cell.str "", Cell.str "", Cell.str "", Cell.str "", Cell.str "",
       Cell.str "", Cell.str ""] :: csvGo ts seen rest
  | (city, CityResult.ok sts) :: rest =>
      let next := csvCityGo ts city seen sts
      next.2 ++ csvGo ts next.1 rest

/-- Embeds `write_csv` from `scrape_gas.py` as the list of rows it writes. -/
def write_csv (data : List (String × CityResult)) (ts_label : String) :
    List (List Cell) :=
  csvHeader :: csvGo ts_label [] data

/-- Claim C10: whenever the writer reaches an error city — at any position
and with any dedupe state — it emits exactly one row `[ts, city, "ERROR",
message, "", "", "", "", "", "", "", ""]`: the Station column (index 2 of the
12-column header) holds the literal `"ERROR"`, the error message sits in the
ordinary Address column (index 3), the eight price/updated columns are empty,
and there is no dedicated error column. -/
theorem write_csv_error_row (data : List (String × CityResult)) (ts : String)
    (seen : List (String × String)) (city e : String)
    (rest : List (String × CityResult)) :
    write_csv data ts = csvHeader :: csvGo ts [] data ∧
    csvHeader.length = 12 ∧
    csvHeader[2]? = some (Cell.str "Station") ∧
    csvHeader[3]? = some (Cell.str "Address") ∧
    csvGo ts seen ((city, CityResult.err e) :: rest) =
      [Cell.str ts, Cell.str city, Cell.str "ERROR", Cell.str e, Cell.str "",
       Cell.str "", Cell.str "", Cell.str "", Cell.str "", Cell.str "",
       Cell.str "", Cell.str ""] :: csvGo ts seen rest :=
  ⟨rfl, rfl, rfl, rfl, rfl⟩

end GasPrice
